import Mathlib

/-!
Shallow embedding of the SphereScripter SCP line formatter
(src/formatter/scp.formatter.js) and of its six-rule variant
(src/unnamed/part_001), together with proofs of the specification's
testable properties.

Lines are modelled as `List Char`.  JavaScript string/regex semantics are
embedded as follows, for the ASCII character range in which SCP scripts are
written: `toUpperCase` becomes `upChar` (ASCII a-z to A-Z, everything else
fixed), the regex class `\s` becomes `isWS` (ASCII whitespace), `\w` becomes
`isWordChar` ([A-Za-z0-9_]), case-insensitive literal matching becomes
`ciPre`.  Document lines never contain an embedded newline (the host editor
supplies one line at a time), so the regex `.` is modelled as "any
character".
-/

/-- Lookup table pairing each ASCII lowercase letter with its uppercase form. -/
def pairsLU : List (Char × Char) :=
  [('a','A'), ('b','B'), ('c','C'), ('d','D'), ('e','E'), ('f','F'), ('g','G'),
   ('h','H'), ('i','I'), ('j','J'), ('k','K'), ('l','L'), ('m','M'), ('n','N'),
   ('o','O'), ('p','P'), ('q','Q'), ('r','R'), ('s','S'), ('t','T'), ('u','U'),
   ('v','V'), ('w','W'), ('x','X'), ('y','Y'), ('z','Z')]

/-- Model of JavaScript `toUpperCase` on a single character (ASCII range). -/
def upChar (c : Char) : Char := (pairsLU.lookup c).getD c

/-- Model of the regex class `\s` (ASCII whitespace), also used by `trim`. -/
def isWS (c : Char) : Bool :=
  c == ' ' || c == '\t' || c == '\n' || c == '\r' || c == '\x0b' || c == '\x0c'

/-- Model of the regex class `[ \t]` used by the assignment-keyword rule. -/
def isSpTab (c : Char) : Bool := c == ' ' || c == '\t'

/-- Model of the regex class `\w`, i.e. `[A-Za-z0-9_]`. -/
def isWordChar (c : Char) : Bool :=
  c == '_' || ('0' ≤ c && c ≤ '9') || ('a' ≤ c && c ≤ 'z') || ('A' ≤ c && c ≤ 'Z')

/-- Model of JavaScript `trimRight` (drop trailing whitespace). -/
def trimRightWS (l : List Char) : List Char := (l.reverse.dropWhile isWS).reverse

/-- Model of JavaScript `trim` (drop leading and trailing whitespace). -/
def trimWS (l : List Char) : List Char := trimRightWS (l.dropWhile isWS)

/-- The two-character sequence `//` that introduces an SCP comment. -/
def slashes : List Char := ['/', '/']

/-- SCPFormatter.isCommentLine: `line.trim().startsWith("//")`. -/
def isCommentLine (l : List Char) : Bool := List.isPrefixOf slashes (trimWS l)

/-- Case-insensitive literal prefix test, modelling how a regex literal with
the `i` flag matches at the start of a string (ASCII case folding). -/
def ciPre : List Char → List Char → Bool
  | [], _ => true
  | _ :: _, [] => false
  | a :: as, b :: bs => (upChar a == upChar b) && ciPre as bs

/-- Modelled from the spec: `formatter/constants.js` is not present under
`src/` (it is only required by the formatter files).  The spec names
`defname` as an assignment keyword ("tokens that, when they begin a line
followed immediately by `=`, must be uppercased (e.g. `defname=`)"). -/
def VarsKeywords : List (List Char) := [("defname").toList]

/-- Modelled from the spec: the scoped-prefix table of the missing
`formatter/constants.js`; the spec names `tag` as a scoped token
(`tag.name=` becomes `TAG.name=`). -/
def ScopedVarTokens : List (List Char) := [("tag").toList]

/-- Modelled from the spec: the control-keyword table of the missing
`formatter/constants.js` (called `ControlKeywords` in the canonical
formatter and `Controls` in the variant); the spec and the formatter's doc
comment name `begin`, `end`, `if`, `endif`, `for`, `endfor`. -/
def ControlKeywords : List (List Char) :=
  [("begin").toList, ("end").toList, ("if").toList,
   ("endif").toList, ("for").toList, ("endfor").toList]

/-- The command-keyword list embedded literally in `formatCommandCalls`. -/
def commandKeywords : List (List Char) :=
  [("SAY").toList, ("EMOTE").toList, ("SYSMESSAGE").toList, ("DIALOG").toList,
   ("NEWITEM").toList, ("EQUIP").toList, ("UNEQUIP").toList, ("GO").toList,
   ("FACE").toList, ("FOLLOW").toList, ("SPEAK").toList, ("BOUNCE").toList,
   ("CONSUME").toList, ("REMOVE").toList]

/-- Looking at whitespace or the end of the line: this is the negative
lookahead `(?!\S)` of the trigger rule, and also the shape of the optional
rest region's start in the section-header rule. -/
def lookOk : List Char → Bool
  | [] => true
  | c :: _ => isWS c

/-- Section-header regex `^\s*\[(\w+)(\s+.*)?\]\s*$` (flag `i`): on a match,
returns the captured word token and the group-2 region (or `[]` when the
optional group is absent).  The greedy `.*` forces the closing bracket to be
the last non-whitespace character of the line, and the maximal `\w+` run
must be followed by the bracket or by a whitespace character. -/
def sectionSplit? (l : List Char) : Option (List Char × List Char) :=
  match l.dropWhile isWS with
  | [] => none
  | c :: tail =>
    if c = '[' then
      match (trimRightWS tail).reverse with
      | [] => none
      | e :: innerRev =>
        if e = ']' then
          if (innerRev.reverse.takeWhile isWordChar).isEmpty then none
          else
            if lookOk (innerRev.reverse.drop
                ((innerRev.reverse.takeWhile isWordChar).length)) then
              some (innerRev.reverse.takeWhile isWordChar,
                innerRev.reverse.drop ((innerRev.reverse.takeWhile isWordChar).length))
            else none
        else none
    else none

/-- SCPFormatter.formatSectionHeaders: replace a whole-line section-header
match with `[` + uppercased word + rest + `]` (the surrounding whitespace
that the anchors matched is not re-emitted by the replacement). -/
def formatSectionHeaders (l : List Char) : List Char :=
  match sectionSplit? l with
  | some (w, rest) => '[' :: (w.map upChar ++ rest ++ [']'])
  | none => l

/-- The literal `on=@` at the head of the trigger pattern. -/
def onAt : List Char := ['o', 'n', '=', '@']

/-- Character class `[^\s/]` of the trigger pattern. -/
def notWsSlash (c : Char) : Bool := !isWS c && c != '/'

/-- Word-boundary state after a trigger match: the last matched character is
the tail run's last character, or else the word run's last (a word
character). -/
def trigBnd (tl : List Char) : Bool :=
  match tl.getLast? with
  | some c => !isWordChar c
  | none => false

/-- One attempt to match the trigger regex `(\bon=@\w+\b[^\s/]*)(?!\S)` at
the head of `s` (the `\b` before `on` is checked by the caller).  On success
returns the match length and the word-boundary flag holding after the
match.  `\w+` and `[^\s/]*` take their maximal runs; the negative lookahead
`(?!\S)` requires the next character to be whitespace or the end. -/
def triggerMatch (s : List Char) : Option (Nat × Bool) :=
  if ciPre onAt s then
    if ((s.drop 4).takeWhile isWordChar).isEmpty then none
    else
      if lookOk (((s.drop 4).drop ((s.drop 4).takeWhile isWordChar).length).drop
          ((((s.drop 4).drop ((s.drop 4).takeWhile isWordChar).length).takeWhile
            notWsSlash).length)) then
        some (4 + ((s.drop 4).takeWhile isWordChar).length +
            (((s.drop 4).drop ((s.drop 4).takeWhile isWordChar).length).takeWhile
              notWsSlash).length,
          trigBnd (((s.drop 4).drop ((s.drop 4).takeWhile isWordChar).length).takeWhile
            notWsSlash))
      else none
  else none

/-- Left-to-right global scan of the trigger regex, uppercasing every match,
as `String.replace` with the `g` flag does.  `bnd` says whether a word
boundary `\b` holds before the current position; `fuel` only forces
structural termination and is always called with at least `s.length`. -/
def scanTrig : Nat → Bool → List Char → List Char
  | 0, _, s => s
  | _ + 1, _, [] => []
  | fuel + 1, bnd, c :: cs =>
    if bnd then
      match triggerMatch (c :: cs) with
      | some (n, bnd2) =>
        ((c :: cs).take n).map upChar ++ scanTrig fuel bnd2 ((c :: cs).drop n)
      | none => c :: scanTrig fuel (!isWordChar c) cs
    else c :: scanTrig fuel (!isWordChar c) cs

/-- SCPFormatter.formatTriggers: uppercase every match of
`(\bon=@\w+\b[^\s/]*)(?!\S)` (flags `gi`). -/
def formatTriggers (l : List Char) : List Char := scanTrig l.length true l

/-- Generic line-start-anchored token rule `^(pre*)(tok)(?=post)` (flag `i`):
`pre` is the whitespace class the anchor skips, `post` checks the text after
the token, `keep` says whether the replacement re-emits the skipped
whitespace (the scoped and control rules capture and re-emit it; the
assignment rule's replacement drops it).  The matched token region is
uppercased; everything after it is untouched. -/
def anchorStep (pre : Char → Bool) (post : List Char → Bool) (keep : Bool)
    (tok : List Char) (l : List Char) : List Char :=
  if ciPre tok (l.dropWhile pre) && post ((l.dropWhile pre).drop tok.length) then
    (if keep then l.takeWhile pre else []) ++
      ((l.dropWhile pre).take tok.length).map upChar ++ (l.dropWhile pre).drop tok.length
  else l

/-- Lookahead `(?=\.|=)` of the scoped-assignment rule. -/
def postDotEq : List Char → Bool
  | c :: _ => c == '.' || c == '='
  | [] => false

/-- Word boundary `\b` after a token ending in a word character. -/
def postBoundary : List Char → Bool
  | c :: _ => !isWordChar c
  | [] => true

/-- Trivial post-condition (the assignment rule's `=` is part of its token). -/
def postTrue : List Char → Bool := fun _ => true

/-- Sequential application of one anchored rule for every token of a
keyword table, as the rules' `for ... of` loops do. -/
def anchorFold (pre : Char → Bool) (post : List Char → Bool) (keep : Bool)
    (toks : List (List Char)) (l : List Char) : List Char :=
  toks.foldl (fun acc tok => anchorStep pre post keep tok acc) l

/-- SCPFormatter.formatScopedAssignments: for each scoped token, rewrite by
`^(\s*)(tok)(?=\.|=)` (flag `i`), uppercasing the token and re-emitting the
captured whitespace. -/
def formatScopedAssignments (l : List Char) : List Char :=
  anchorFold isWS postDotEq true ScopedVarTokens l

/-- SCPFormatter.formatAssignmentKeywords: for each keyword, rewrite by
`^[ \t]*kw=` (flag `i`) with replacement `KW=`; the matched leading
whitespace is not re-emitted. -/
def formatAssignmentKeywords (l : List Char) : List Char :=
  anchorFold isSpTab postTrue false (VarsKeywords.map (fun kw => kw ++ ['='])) l

/-- SCPFormatter.formatControlKeywords: for each control token, rewrite by
`^(\s*)(tok)\b` (flag `i`), uppercasing the token and re-emitting the
captured whitespace. -/
def formatControlKeywords (l : List Char) : List Char :=
  anchorFold isWS postBoundary true ControlKeywords l

/-- One attempt to match the command regex `\b(F)\b(?=\s|\(|$)` at the head
of `s` (the leading `\b` is checked by the caller): a case-insensitive
occurrence of `F` followed by whitespace, `(`, or the end of the line. -/
def cmdMatchB (f : List Char) (s : List Char) : Bool :=
  ciPre f s &&
    (match s.drop f.length with
     | [] => true
     | c :: _ => isWS c || c == '(')

/-- Left-to-right global scan for one command keyword, replacing every match
with the uppercase literal `f`, as `String.replace` with the `g` flag does. -/
def scanCmd (f : List Char) : Nat → Bool → List Char → List Char
  | 0, _, s => s
  | _ + 1, _, [] => []
  | fuel + 1, bnd, c :: cs =>
    if bnd && cmdMatchB f (c :: cs) then
      f ++ scanCmd f fuel (!isWordChar (f.getLastD 'A')) ((c :: cs).drop f.length)
    else c :: scanCmd f fuel (!isWordChar c) cs

/-- Sequential application of the per-keyword command scan, as the rule's
`for ... of` loop does. -/
def cmdFold (fs : List (List Char)) (l : List Char) : List Char :=
  fs.foldl (fun acc f => scanCmd f acc.length true acc) l

/-- SCPFormatter.formatCommandCalls: successively apply the global rewrite
`\b(F)\b(?=\s|\(|$)` (flags `gi`) for each of the fourteen command
keywords. -/
def formatCommandCalls (l : List Char) : List Char := cmdFold commandKeywords l

/-- SCPFormatter.formatLine: return comment lines unchanged, otherwise apply
the six rewrite rules in their fixed order (sections, triggers, scoped
assignments, assignment keywords, control keywords, command calls). -/
def formatLine (l : List Char) : List Char :=
  if isCommentLine l then l
  else
    formatCommandCalls (formatControlKeywords (formatAssignmentKeywords
      (formatScopedAssignments (formatTriggers (formatSectionHeaders l)))))

/-- The per-line pipeline of provideDocumentFormattingEdits: trailing
whitespace is trimmed from the raw line text, then `formatLine` runs. -/
def formatPipeline (l : List Char) : List Char := formatLine (trimRightWS l)

/-- Model of a vscode.TextEdit produced by the formatter: a range from
Position(startLine, startChar) to Position(endLine, endChar) plus the
replacement text. -/
structure TextEditM where
  startLine : Nat
  startChar : Nat
  endLine : Nat
  endChar : Nat
  newText : List Char
  deriving Repr, DecidableEq

/-- The edit built for line `i` with raw text `t`: it spans the line from
column 0 to the original untrimmed length, and replaces it with the
formatted text. -/
def lineEdit (i : Nat) (t : List Char) : TextEditM :=
  { startLine := i, startChar := 0, endLine := i, endChar := t.length,
    newText := formatPipeline t }

/-- SCPFormatter.provideDocumentFormattingEdits on a well-formed document
(every line's text a string): one edit per line, in index order. -/
def provideDocumentFormattingEdits (doc : List (List Char)) : List TextEditM :=
  doc.enum.map (fun p => lineEdit p.1 p.2)

/-- The formatting loop over a document whose line texts may be `null`
(modelled as `none`): calling `trimRight` on a null text throws a
TypeError, which aborts the whole call; this is modelled by `Except`. -/
def formatDocumentEdits? (doc : List (Option (List Char))) : Except Unit (List TextEditM) :=
  go 0 doc
where
  go (i : Nat) : List (Option (List Char)) → Except Unit (List TextEditM)
    | [] => Except.ok []
    | none :: _ => Except.error ()
    | some t :: rest =>
      match go (i + 1) rest with
      | Except.ok es => Except.ok (lineEdit i t :: es)
      | Except.error e => Except.error e

/-- The six-rule variant formatter of src/unnamed/part_001: structurally the
same rules, but `formatTriggers`, `formatScopedVars`, `formatControls`,
`formatSections` and `formatFunctions` each re-check for a comment line
themselves, while `formatVars` relies solely on the caller's gate.  Its
`Controls` table is the same constants.js table as the canonical formatter's
`ControlKeywords`. -/
def vFormatTriggers (l : List Char) : List Char :=
  if isCommentLine l then l else formatTriggers l

/-- Variant rule formatVars of part_001 (no comment re-check). -/
def vFormatVars (l : List Char) : List Char := formatAssignmentKeywords l

/-- Variant rule formatScopedVars of part_001 (with comment re-check). -/
def vFormatScopedVars (l : List Char) : List Char :=
  if isCommentLine l then l else formatScopedAssignments l

/-- Variant rule formatControls of part_001 (with comment re-check). -/
def vFormatControls (l : List Char) : List Char :=
  if isCommentLine l then l else formatControlKeywords l

/-- Variant rule formatSections of part_001 (with comment re-check). -/
def vFormatSections (l : List Char) : List Char :=
  if isCommentLine l then l else formatSectionHeaders l

/-- Variant rule formatFunctions of part_001 (with comment re-check). -/
def vFormatFunctions (l : List Char) : List Char :=
  if isCommentLine l then l else formatCommandCalls l

/-- Variant formatLine of part_001: same gate and same rule order as the
canonical formatter, but through the per-rule re-checking wrappers. -/
def vFormatLine (l : List Char) : List Char :=
  if isCommentLine l then l
  else
    vFormatFunctions (vFormatControls (vFormatVars
      (vFormatScopedVars (vFormatTriggers (vFormatSections l)))))

example : formatLine (("on=@create").toList) = ("ON=@CREATE").toList := by decide
example : formatLine (("  defname=SOMETHING").toList) = ("DEFNAME=SOMETHING").toList := by decide
example : formatLine (("[itemdef 0x1]").toList) = ("[ITEMDEF 0x1]").toList := by decide
example : formatLine (("  [itemdef 0x1]").toList) = ("[ITEMDEF 0x1]").toList := by decide
example : formatLine (("tag.myflag=1").toList) = ("TAG.myflag=1").toList := by decide
example : formatLine (("// on=@create").toList) = ("// on=@create").toList := by decide
example : formatLine (("  say \"hello\"").toList) = ("  SAY \"hello\"").toList := by decide
example : formatLine (("begin").toList) = ("BEGIN").toList := by decide
example : formatLine (("x = 1 // say hello").toList) = ("x = 1 // SAY hello").toList := by decide
example : formatLine (("on=@create//x").toList) = ("on=@create//x").toList := by decide
example : formatLine (("on=@create on=@dclick x").toList) = ("ON=@CREATE ON=@DCLICK x").toList := by decide

/-! Character-level facts about `upChar` and the character classes. -/

theorem lookup_mem_pairs {α β : Type} [BEq α] [LawfulBEq α] :
    ∀ (l : List (α × β)) (c : α) (u : β), l.lookup c = some u → (c, u) ∈ l := by
  intro l
  induction l with
  | nil => intro c u h; exact absurd h (by simp [List.lookup])
  | cons p ps ih =>
    intro c u h
    cases p with
    | mk k v =>
      have he : List.lookup c ((k, v) :: ps) =
          match c == k with
          | true => some v
          | false => List.lookup c ps := rfl
      rw [he] at h
      cases hb : c == k with
      | true =>
        rw [hb] at h
        have hck := eq_of_beq hb
        subst hck
        cases h
        exact List.mem_cons_self _ _
      | false =>
        rw [hb] at h
        exact List.mem_cons_of_mem _ (ih c u h)

theorem pairsLU_facts : ∀ p ∈ pairsLU, isWS p.1 = false ∧ isWS p.2 = false ∧
    isSpTab p.1 = false ∧ isSpTab p.2 = false ∧ isWordChar p.1 = true ∧
    isWordChar p.2 = true ∧ pairsLU.lookup p.2 = none := by decide

theorem pairsLU_vals : ∀ p ∈ pairsLU, p.2 ≠ '/' ∧ p.2 ≠ '.' ∧ p.2 ≠ '=' ∧
    p.2 ≠ '[' ∧ p.2 ≠ ']' ∧ p.2 ≠ '(' := by decide

theorem upChar_of_none {c : Char} (h : pairsLU.lookup c = none) : upChar c = c := by
  unfold upChar
  rw [h]
  rfl

theorem upChar_of_some {c u : Char} (h : pairsLU.lookup c = some u) : upChar c = u := by
  unfold upChar
  rw [h]
  rfl

theorem upChar_idem (c : Char) : upChar (upChar c) = upChar c := by
  cases h : pairsLU.lookup c with
  | none => rw [upChar_of_none h, upChar_of_none h]
  | some u =>
    rw [upChar_of_some h]
    exact upChar_of_none (pairsLU_facts _ (lookup_mem_pairs _ _ _ h)).2.2.2.2.2.2

theorem isWS_upChar (c : Char) : isWS (upChar c) = isWS c := by
  cases h : pairsLU.lookup c with
  | none => rw [upChar_of_none h]
  | some u =>
    rw [upChar_of_some h]
    have h1 := pairsLU_facts _ (lookup_mem_pairs _ _ _ h)
    rw [h1.1, (pairsLU_facts (c, u) (lookup_mem_pairs _ _ _ h)).2.1]

theorem isSpTab_upChar (c : Char) : isSpTab (upChar c) = isSpTab c := by
  cases h : pairsLU.lookup c with
  | none => rw [upChar_of_none h]
  | some u =>
    rw [upChar_of_some h]
    have h1 := pairsLU_facts _ (lookup_mem_pairs _ _ _ h)
    rw [h1.2.2.1, h1.2.2.2.1]

theorem isWordChar_upChar (c : Char) : isWordChar (upChar c) = isWordChar c := by
  cases h : pairsLU.lookup c with
  | none => rw [upChar_of_none h]
  | some u =>
    rw [upChar_of_some h]
    have h1 := pairsLU_facts _ (lookup_mem_pairs _ _ _ h)
    rw [h1.2.2.2.2.1, h1.2.2.2.2.2.1]

theorem upChar_eq_fixed {k : Char} (hk : pairsLU.lookup k = none)
    (hv : ∀ p ∈ pairsLU, p.2 ≠ k) (c : Char) : upChar c = k ↔ c = k := by
  constructor
  · intro h
    cases hl : pairsLU.lookup c with
    | none => rw [upChar_of_none hl] at h; exact h
    | some u =>
      rw [upChar_of_some hl] at h
      exact absurd h (hv _ (lookup_mem_pairs _ _ _ hl))
  · intro h
    subst h
    exact upChar_of_none hk

theorem upChar_eq_slash (c : Char) : (upChar c = '/') ↔ (c = '/') :=
  upChar_eq_fixed (by decide) (fun p hp => (pairsLU_vals p hp).1) c

theorem upChar_eq_dot (c : Char) : (upChar c = '.') ↔ (c = '.') :=
  upChar_eq_fixed (by decide) (fun p hp => (pairsLU_vals p hp).2.1) c

theorem upChar_eq_eqs (c : Char) : (upChar c = '=') ↔ (c = '=') :=
  upChar_eq_fixed (by decide) (fun p hp => (pairsLU_vals p hp).2.2.1) c

theorem upChar_eq_lbrack (c : Char) : (upChar c = '[') ↔ (c = '[') :=
  upChar_eq_fixed (by decide) (fun p hp => (pairsLU_vals p hp).2.2.2.1) c

theorem upChar_eq_lparen (c : Char) : (upChar c = '(') ↔ (c = '(') :=
  upChar_eq_fixed (by decide) (fun p hp => (pairsLU_vals p hp).2.2.2.2.2) c

theorem notWsSlash_upChar (c : Char) : notWsSlash (upChar c) = notWsSlash c := by
  unfold notWsSlash
  rw [isWS_upChar]
  congr 1
  by_cases h : c = '/'
  · subst h
    decide
  · have h2 : upChar c ≠ '/' := fun hc => h ((upChar_eq_slash c).mp hc)
    rw [bne_iff_ne.mpr h2, bne_iff_ne.mpr h]

theorem ws_chars {c : Char} (h : isWS c = true) :
    c = ' ' ∨ c = '\t' ∨ c = '\n' ∨ c = '\r' ∨ c = '\x0b' ∨ c = '\x0c' := by
  simp only [isWS, Bool.or_eq_true, beq_iff_eq] at h
  tauto

theorem ws_not_word {c : Char} (h : isWS c = true) : isWordChar c = false := by
  rcases ws_chars h with h | h | h | h | h | h <;> subst h <;> decide

theorem isWS_of_isSpTab {c : Char} (h : isSpTab c = true) : isWS c = true := by
  simp only [isSpTab, Bool.or_eq_true, beq_iff_eq] at h
  rcases h with h | h <;> subst h <;> decide

theorem upChar_ws {c : Char} (h : isWS c = true) : upChar c = c := by
  rcases ws_chars h with h | h | h | h | h | h <;> subst h <;> decide

/-! The case-only rewrite relation `chUp` (each character is either kept or
uppercased in place) and its whitespace-dropping extension `wsUp`. -/

/-- One output character is the input character or its uppercase form. -/
def upRel (a b : Char) : Prop := b = a ∨ b = upChar a

/-- `chUp s t`: `t` is `s` with some characters uppercased in place. -/
def chUp (s t : List Char) : Prop := List.Forall₂ upRel s t

/-- `wsUp x y`: `y` is `x` with a (possibly empty) leading space-and-tab run
removed and some characters uppercased in place; this is the composite
effect of the whitespace-preserving rules and the assignment rule. -/
def wsUp (x y : List Char) : Prop :=
  ∃ sp x0, x = sp ++ x0 ∧ sp.all isSpTab = true ∧ chUp x0 y

theorem upRel_p {p : Char → Bool} (hp : ∀ c, p (upChar c) = p c) {a b : Char}
    (h : upRel a b) : p b = p a := by
  cases h with
  | inl h => rw [h]
  | inr h => rw [h, hp]

theorem upRel_upEq {a b : Char} (h : upRel a b) : upChar b = upChar a := by
  cases h with
  | inl h => rw [h]
  | inr h => rw [h, upChar_idem]

theorem chUp_refl (l : List Char) : chUp l l :=
  List.forall₂_same.mpr (fun x _ => Or.inl rfl)

theorem chUp_length {s t : List Char} (h : chUp s t) : s.length = t.length :=
  h.length_eq

theorem chUp_upEq {s t : List Char} (h : chUp s t) : t.map upChar = s.map upChar := by
  induction h with
  | nil => rfl
  | cons hr _ ih =>
    simp only [List.map_cons, ih, List.cons.injEq, and_true]
    exact upRel_upEq hr

theorem chUp_trans {s t u : List Char} (h1 : chUp s t) (h2 : chUp t u) : chUp s u := by
  induction h1 generalizing u with
  | nil => cases h2; exact List.Forall₂.nil
  | cons hr hl ih =>
    cases h2 with
    | cons hr2 hl2 =>
      refine List.Forall₂.cons ?_ (ih hl2)
      cases hr with
      | inl e1 =>
        subst e1
        exact hr2
      | inr e1 =>
        subst e1
        cases hr2 with
        | inl e2 => exact Or.inr e2
        | inr e2 => rw [upChar_idem] at e2; exact Or.inr e2

theorem chUp_append {a b c d : List Char} (h1 : chUp a b) (h2 : chUp c d) :
    chUp (a ++ c) (b ++ d) := List.rel_append h1 h2

theorem chUp_mapUp (l : List Char) : chUp l (l.map upChar) := by
  induction l with
  | nil => exact List.Forall₂.nil
  | cons c cs ih => exact List.Forall₂.cons (Or.inr rfl) ih

theorem chUp_take {s t : List Char} (n : Nat) (h : chUp s t) :
    chUp (s.take n) (t.take n) := List.forall₂_take n h

theorem chUp_drop {s t : List Char} (n : Nat) (h : chUp s t) :
    chUp (s.drop n) (t.drop n) := List.forall₂_drop n h

theorem chUp_reverse {s t : List Char} (h : chUp s t) : chUp s.reverse t.reverse :=
  List.forall₂_reverse_iff.mpr h

theorem chUp_sandwich {a b c : List Char} (h1 : chUp a b) (h2 : chUp b c)
    (h3 : c = a) : b = a := by
  subst h3
  induction h1 with
  | nil => rfl
  | cons hr hl ih =>
    cases h2 with
    | cons hr2 hl2 =>
      have hh : ∀ d e : Char, upRel d e → upRel e d → e = d := by
        intro d e he hed
        cases he with
        | inl p1 => exact p1
        | inr p1 =>
          cases hed with
          | inl p2 => exact p2.symm
          | inr p2 =>
            have hde : d = e := by rw [p2, p1, upChar_idem, ← p1]
            exact hde.symm
      rw [hh _ _ hr hr2, ih hl2]

theorem chUp_fix_upper {a b : List Char} (h1 : chUp a b) (hfix : a.map upChar = a) :
    b = a := by
  induction h1 with
  | nil => rfl
  | cons hr hl ih =>
    rename_i a1 b1 as1 bs1
    simp only [List.map_cons, List.cons.injEq] at hfix
    have hh : b1 = a1 := by
      cases hr with
      | inl e1 => exact e1
      | inr e1 => rw [e1, hfix.1]
    rw [hh, ih hfix.2]

/-- Pointwise invariance of a character class lifts across `chUp`: the
`takeWhile` runs have equal length and the `dropWhile` suffixes stay
related. -/
theorem chUp_spans {p : Char → Bool} (hp : ∀ c, p (upChar c) = p c) :
    ∀ {s t : List Char}, chUp s t →
      (s.takeWhile p).length = (t.takeWhile p).length ∧
        chUp (s.takeWhile p) (t.takeWhile p) ∧ chUp (s.dropWhile p) (t.dropWhile p) := by
  intro s t h
  induction h with
  | nil => exact ⟨rfl, List.Forall₂.nil, List.Forall₂.nil⟩
  | cons hr hl ih =>
    rename_i a b as bs
    have hpb : p b = p a := upRel_p hp hr
    cases hpa : p a with
    | true =>
      rw [List.takeWhile_cons, List.takeWhile_cons, List.dropWhile_cons,
        List.dropWhile_cons, hpa, hpb, hpa]
      simp only [if_true]
      exact ⟨by simp [ih.1], List.Forall₂.cons hr ih.2.1, ih.2.2⟩
    | false =>
      rw [List.takeWhile_cons, List.takeWhile_cons, List.dropWhile_cons,
        List.dropWhile_cons, hpa, hpb, hpa]
      simp only [Bool.false_eq_true, if_false]
      exact ⟨by simp, List.Forall₂.nil, List.Forall₂.cons hr hl⟩

theorem wsUp_of_chUp {x y : List Char} (h : chUp x y) : wsUp x y :=
  ⟨[], x, rfl, rfl, h⟩

theorem wsUp_refl (l : List Char) : wsUp l l := wsUp_of_chUp (chUp_refl l)

theorem wsUp_length {x y : List Char} (h : wsUp x y) : y.length ≤ x.length := by
  obtain ⟨sp, x0, hx, _, hch⟩ := h
  subst hx
  rw [List.length_append, ← chUp_length hch]
  omega

theorem wsUp_trans_chUp {x y z : List Char} (h1 : wsUp x y) (h2 : chUp y z) :
    wsUp x z := by
  obtain ⟨sp, x0, hx, hsp, hch⟩ := h1
  exact ⟨sp, x0, hx, hsp, chUp_trans hch h2⟩

theorem chUp_all_sptab_back {a b : List Char} (h : chUp a b)
    (hb : b.all isSpTab = true) : a.all isSpTab = true := by
  induction h with
  | nil => rfl
  | cons hr hl ih =>
    rw [List.all_cons, Bool.and_eq_true] at hb ⊢
    refine ⟨?_, ih hb.2⟩
    rw [← upRel_p isSpTab_upChar hr]
    exact hb.1

theorem chUp_trans_wsUp {x y z : List Char} (h1 : chUp x y) (h2 : wsUp y z) :
    wsUp x z := by
  obtain ⟨sp, y0, hy, hsp, hch⟩ := h2
  subst hy
  refine ⟨x.take sp.length, x.drop sp.length, (List.take_append_drop _ _).symm, ?_, ?_⟩
  · have htk : chUp (x.take sp.length) ((sp ++ y0).take sp.length) := chUp_take _ h1
    rw [List.take_left] at htk
    exact chUp_all_sptab_back htk hsp
  · have hdr : chUp (x.drop sp.length) ((sp ++ y0).drop sp.length) := chUp_drop _ h1
    rw [List.drop_left] at hdr
    exact chUp_trans hdr hch

theorem wsUp_trans {x y z : List Char} (h1 : wsUp x y) (h2 : wsUp y z) :
    wsUp x z := by
  obtain ⟨sp, x0, hx, hsp, hch⟩ := h1
  subst hx
  obtain ⟨sp2, x00, hx0, hsp2, hch2⟩ := chUp_trans_wsUp hch h2
  refine ⟨sp ++ sp2, x00, by rw [hx0, List.append_assoc], ?_, hch2⟩
  rw [List.all_append, hsp, hsp2]
  rfl

theorem wsUp_sandwich {x m z : List Char} (h1 : wsUp x m) (h2 : wsUp m z)
    (h3 : z = x) : m = x := by
  obtain ⟨sp, x0, hx, hsp, hch⟩ := h1
  obtain ⟨sp2, m0, hm, hsp2, hch2⟩ := h2
  have l1 := chUp_length hch
  have l2 := chUp_length hch2
  have hxlen : x.length = sp.length + x0.length := by rw [hx, List.length_append]
  have hmlen : m.length = sp2.length + m0.length := by rw [hm, List.length_append]
  have hzx : z.length = x.length := by rw [h3]
  have hsp0 : sp = [] := List.length_eq_zero.mp (by omega)
  have hsp20 : sp2 = [] := List.length_eq_zero.mp (by omega)
  rw [hsp0, List.nil_append] at hx
  rw [hsp20, List.nil_append] at hm
  rw [hx]
  rw [← hm] at hch2
  rw [hx] at h3
  exact chUp_sandwich hch hch2 h3


/-! Lemmas about `ciPre` and small list helpers. -/

theorem ciPre_length_le : ∀ {p s : List Char}, ciPre p s = true → p.length ≤ s.length := by
  intro p
  induction p with
  | nil => intro s _; exact Nat.zero_le _
  | cons a as ih =>
    intro s h
    cases s with
    | nil => exact absurd h (by simp [ciPre])
    | cons b bs =>
      rw [ciPre, Bool.and_eq_true] at h
      have := ih h.2
      simp only [List.length_cons]
      omega

theorem ciPre_congr : ∀ {p s t : List Char}, s.map upChar = t.map upChar →
    ciPre p s = ciPre p t := by
  intro p
  induction p with
  | nil => intro s t _; rfl
  | cons a as ih =>
    intro s t hst
    cases s with
    | nil =>
      cases t with
      | nil => rfl
      | cons b bs => exact absurd hst (by simp)
    | cons c cs =>
      cases t with
      | nil => exact absurd hst (by simp)
      | cons b bs =>
        simp only [List.map_cons, List.cons.injEq] at hst
        rw [ciPre, ciPre, hst.1, ih hst.2]

theorem ciPre_take_mapUp : ∀ {p s : List Char}, ciPre p s = true →
    (s.take p.length).map upChar = p.map upChar := by
  intro p
  induction p with
  | nil => intro s _; rfl
  | cons a as ih =>
    intro s h
    cases s with
    | nil => exact absurd h (by simp [ciPre])
    | cons b bs =>
      rw [ciPre, Bool.and_eq_true] at h
      simp only [List.length_cons, List.take_succ_cons, List.map_cons]
      rw [ih h.2, (eq_of_beq h.1).symm]

theorem drop_len_takeWhile (p : Char → Bool) (l : List Char) :
    l.drop (l.takeWhile p).length = l.dropWhile p := by
  induction l with
  | nil => rfl
  | cons c cs ih =>
    cases hc : p c with
    | true =>
      simp only [List.takeWhile_cons, List.dropWhile_cons, hc, if_true,
        List.length_cons, List.drop_succ_cons]
      exact ih
    | false => simp [List.takeWhile_cons, List.dropWhile_cons, hc]

theorem dropWhile_head_false {p : Char → Bool} : ∀ {l : List Char} {c : Char}
    {cs : List Char}, l.dropWhile p = c :: cs → p c = false := by
  intro l
  induction l with
  | nil => intro c cs h; exact absurd h (by simp [List.dropWhile])
  | cons d ds ih =>
    intro c cs h
    rw [List.dropWhile_cons] at h
    cases hd : p d with
    | true =>
      rw [hd] at h
      simp only [if_true] at h
      exact ih h
    | false =>
      rw [hd] at h
      simp only [Bool.false_eq_true, if_false, List.cons.injEq] at h
      rw [← h.1]
      exact hd

theorem all_takeWhileP (p : Char → Bool) (l : List Char) : (l.takeWhile p).all p = true := by
  induction l with
  | nil => rfl
  | cons c cs ih =>
    rw [List.takeWhile_cons]
    cases hc : p c with
    | true => simpa [hc] using ih
    | false => simp

theorem takeWhile_append_of_all {p : Char → Bool} {a b : List Char} (h : a.all p = true) :
    (a ++ b).takeWhile p = a ++ b.takeWhile p := by
  rw [List.takeWhile_append, List.takeWhile_eq_self_iff.mpr (List.all_eq_true.mp h)]
  simp

theorem dropWhile_append_of_all {p : Char → Bool} {a b : List Char} (h : a.all p = true) :
    (a ++ b).dropWhile p = b.dropWhile p := by
  rw [List.dropWhile_append, List.dropWhile_eq_nil_iff.mpr (List.all_eq_true.mp h)]
  simp

/-! Lemmas about the anchored token rules. -/

/-- The match condition of `anchorStep`. -/
def acond (pre : Char → Bool) (post : List Char → Bool) (tok : List Char)
    (l : List Char) : Bool :=
  ciPre tok (l.dropWhile pre) && post ((l.dropWhile pre).drop tok.length)

theorem anchorStep_pos {pre : Char → Bool} {post : List Char → Bool} {keep : Bool}
    {tok l : List Char} (h : acond pre post tok l = true) :
    anchorStep pre post keep tok l =
      (if keep then l.takeWhile pre else []) ++
        ((l.dropWhile pre).take tok.length).map upChar ++
          (l.dropWhile pre).drop tok.length := by
  unfold acond at h
  unfold anchorStep
  rw [if_pos h]

theorem anchorStep_neg {pre : Char → Bool} {post : List Char → Bool} {keep : Bool}
    {tok l : List Char} (h : acond pre post tok l = false) :
    anchorStep pre post keep tok l = l := by
  unfold acond at h
  unfold anchorStep
  rw [h]
  rfl

theorem mapUp_idem (l : List Char) : (l.map upChar).map upChar = l.map upChar := by
  rw [List.map_map]
  exact List.map_congr_left fun c _ => upChar_idem c

theorem dropWhile_of_takeWhile_nil {p : Char → Bool} {l : List Char}
    (h : l.takeWhile p = []) : l.dropWhile p = l := by
  cases l with
  | nil => rfl
  | cons c cs =>
    rw [List.takeWhile_cons] at h
    cases hc : p c with
    | true => rw [hc] at h; simp at h
    | false => simp [List.dropWhile_cons, hc]

theorem anchorStep_chUp (pre : Char → Bool) (post : List Char → Bool)
    (tok l : List Char) : chUp l (anchorStep pre post true tok l) := by
  cases h : acond pre post tok l with
  | false => rw [anchorStep_neg h]; exact chUp_refl l
  | true =>
    rw [anchorStep_pos h]
    simp only [if_true]
    have hsplit :
        l = (l.takeWhile pre ++ (l.dropWhile pre).take tok.length) ++
          (l.dropWhile pre).drop tok.length := by
      rw [List.append_assoc, List.take_append_drop, List.takeWhile_append_dropWhile]
    conv_lhs => rw [hsplit]
    exact chUp_append (chUp_append (chUp_refl _) (chUp_mapUp _)) (chUp_refl _)

theorem anchorStep_wsUp (pre : Char → Bool) (post : List Char → Bool)
    (hps : ∀ c, pre c = true → isSpTab c = true) (tok l : List Char) :
    wsUp l (anchorStep pre post false tok l) := by
  cases h : acond pre post tok l with
  | false => rw [anchorStep_neg h]; exact wsUp_refl l
  | true =>
    rw [anchorStep_pos h]
    simp only [Bool.false_eq_true, if_false, List.nil_append]
    refine ⟨l.takeWhile pre, l.dropWhile pre,
      (List.takeWhile_append_dropWhile pre l).symm, ?_, ?_⟩
    · rw [List.all_eq_true]
      intro c hc
      exact hps c (List.all_eq_true.mp (all_takeWhileP pre l) c hc)
    · conv_lhs => rw [← List.take_append_drop tok.length (l.dropWhile pre)]
      exact chUp_append (chUp_mapUp _) (chUp_refl _)

theorem acond_congr {pre : Char → Bool} {post : List Char → Bool} {tok : List Char}
    (hpreUp : ∀ c, pre (upChar c) = pre c)
    (hpost : ∀ r r', chUp r r' → post r = post r')
    {x y : List Char} (h : chUp x y) : acond pre post tok x = acond pre post tok y := by
  have hdw := (chUp_spans hpreUp h).2.2
  unfold acond
  rw [ciPre_congr (chUp_upEq hdw).symm, hpost _ _ (chUp_drop tok.length hdw)]

theorem ciPre_head_up {tok D : List Char} (htok : tok ≠ []) (h1 : ciPre tok D = true) :
    ∃ d ds, D = d :: ds ∧ upChar d = upChar (tok.headD 'a') := by
  cases tok with
  | nil => exact absurd rfl htok
  | cons t ts =>
    cases D with
    | nil => exact absurd h1 (by simp [ciPre])
    | cons d ds =>
      rw [ciPre, Bool.and_eq_true] at h1
      exact ⟨d, ds, rfl, by rw [List.headD_cons]; exact (eq_of_beq h1.1).symm⟩

theorem anchor_out_splits {pre : Char → Bool} {tok D rest2 : List Char}
    (htok : tok ≠ []) (hhd : pre (upChar (tok.headD 'a')) = false)
    (h1 : ciPre tok D = true) :
    ((D.take tok.length).map upChar ++ rest2).takeWhile pre = [] ∧
    ((D.take tok.length).map upChar ++ rest2).dropWhile pre =
      (D.take tok.length).map upChar ++ rest2 := by
  obtain ⟨d, ds, hD, hup⟩ := ciPre_head_up htok h1
  subst hD
  cases tok with
  | nil => exact absurd rfl htok
  | cons t ts =>
    simp only [List.length_cons, List.take_succ_cons, List.map_cons, List.cons_append]
    have hp : pre (upChar d) = false := by
      rw [hup]
      exact hhd
    rw [List.takeWhile_cons, List.dropWhile_cons, hp]
    simp

theorem anchorStep_idem {pre : Char → Bool} {post : List Char → Bool} {keep : Bool}
    {tok : List Char} (htok : tok ≠ []) (hhd : pre (upChar (tok.headD 'a')) = false)
    (l : List Char) :
    anchorStep pre post keep tok (anchorStep pre post keep tok l) =
      anchorStep pre post keep tok l := by
  cases h : acond pre post tok l with
  | false => rw [anchorStep_neg h, anchorStep_neg h]
  | true =>
    have hpos := @anchorStep_pos pre post keep tok l h
    unfold acond at h
    rw [Bool.and_eq_true] at h
    obtain ⟨h1, h2⟩ := h
    have hlen : tok.length ≤ (l.dropWhile pre).length := ciPre_length_le h1
    have hmlen : (((l.dropWhile pre).take tok.length).map upChar).length = tok.length := by
      rw [List.length_map, List.length_take]
      omega
    obtain ⟨htw, hdw⟩ :=
      @anchor_out_splits pre tok (l.dropWhile pre)
        ((l.dropWhile pre).drop tok.length) htok hhd h1
    have htake : (((l.dropWhile pre).take tok.length).map upChar ++
        (l.dropWhile pre).drop tok.length).take tok.length =
        ((l.dropWhile pre).take tok.length).map upChar := List.take_left' hmlen
    have hdropeq : (((l.dropWhile pre).take tok.length).map upChar ++
        (l.dropWhile pre).drop tok.length).drop tok.length =
        (l.dropWhile pre).drop tok.length := List.drop_left' hmlen
    have houtTW : (anchorStep pre post keep tok l).takeWhile pre =
        (if keep then l.takeWhile pre else []) := by
      rw [hpos, List.append_assoc]
      cases keep with
      | false =>
        simp only [Bool.false_eq_true, if_false, List.nil_append]
        exact htw
      | true =>
        simp only [if_true]
        rw [takeWhile_append_of_all (all_takeWhileP pre l), htw, List.append_nil]
    have houtDW : (anchorStep pre post keep tok l).dropWhile pre =
        ((l.dropWhile pre).take tok.length).map upChar ++
          (l.dropWhile pre).drop tok.length := by
      rw [hpos, List.append_assoc]
      cases keep with
      | false =>
        simp only [Bool.false_eq_true, if_false, List.nil_append]
        exact hdw
      | true =>
        simp only [if_true]
        rw [dropWhile_append_of_all (all_takeWhileP pre l)]
        exact hdw
    have hcond2 : acond pre post tok (anchorStep pre post keep tok l) = true := by
      unfold acond
      rw [houtDW, Bool.and_eq_true]
      constructor
      · have hmap : ((((l.dropWhile pre).take tok.length).map upChar) ++
            (l.dropWhile pre).drop tok.length).map upChar =
            (l.dropWhile pre).map upChar := by
          rw [List.map_append, mapUp_idem, ← List.map_append, List.take_append_drop]
        rw [ciPre_congr hmap]
        exact h1
      · rw [hdropeq]
        exact h2
    rw [anchorStep_pos hcond2, houtTW, houtDW, htake, hdropeq, mapUp_idem, hpos]
    cases keep with
    | false => rfl
    | true => rfl

theorem anchorStep_fix_wsUp {pre : Char → Bool} {post : List Char → Bool} {keep : Bool}
    {tok : List Char}
    (hpreUp : ∀ c, pre (upChar c) = pre c)
    (hpost : ∀ r r', chUp r r' → post r = post r')
    (hstp : ∀ c, isSpTab c = true → pre c = true)
    {x y : List Char} (hxy : wsUp x y)
    (hfix : anchorStep pre post keep tok x = x) :
    anchorStep pre post keep tok y = y := by
  obtain ⟨sp, x0, hx, hsp, hch⟩ := hxy
  have hspPre : sp.all pre = true := by
    rw [List.all_eq_true] at hsp ⊢
    intro c hc
    exact hstp c (hsp c hc)
  have hdwx : x.dropWhile pre = x0.dropWhile pre := by
    rw [hx]; exact dropWhile_append_of_all hspPre
  have htwx : x.takeWhile pre = sp ++ x0.takeWhile pre := by
    rw [hx]; exact takeWhile_append_of_all hspPre
  have hspans := chUp_spans hpreUp hch
  have hdw : chUp (x.dropWhile pre) (y.dropWhile pre) := by
    rw [hdwx]; exact hspans.2.2
  have hcond : acond pre post tok x = acond pre post tok y := by
    unfold acond
    rw [ciPre_congr (chUp_upEq hdw).symm, hpost _ _ (chUp_drop tok.length hdw)]
  cases hcy : acond pre post tok y with
  | false => exact anchorStep_neg hcy
  | true =>
    have hcx : acond pre post tok x = true := by rw [hcond]; exact hcy
    have h1x : ciPre tok (x.dropWhile pre) = true := by
      have hc := hcx
      unfold acond at hc
      rw [Bool.and_eq_true] at hc
      exact hc.1
    have hlenx : tok.length ≤ (x.dropWhile pre).length := ciPre_length_le h1x
    have hfix2 := hfix
    rw [anchorStep_pos hcx] at hfix2
    have hm : chUp ((x.dropWhile pre).take tok.length)
        ((y.dropWhile pre).take tok.length) := chUp_take tok.length hdw
    cases keep with
    | true =>
      simp only [if_true] at hfix2
      have hxsplit : x.takeWhile pre ++ ((x.dropWhile pre).take tok.length ++
          (x.dropWhile pre).drop tok.length) = x := by
        rw [List.take_append_drop, List.takeWhile_append_dropWhile]
      rw [List.append_assoc] at hfix2
      have hcancel := List.append_cancel_left (hfix2.trans hxsplit.symm)
      have hupfix : ((x.dropWhile pre).take tok.length).map upChar =
          (x.dropWhile pre).take tok.length :=
        (List.append_inj hcancel (by rw [List.length_map])).1
      have hmy : (y.dropWhile pre).take tok.length = (x.dropWhile pre).take tok.length :=
        chUp_fix_upper hm hupfix
      rw [anchorStep_pos hcy]
      simp only [if_true]
      rw [hmy, hupfix, ← hmy, List.append_assoc, List.take_append_drop,
        List.takeWhile_append_dropWhile]
    | false =>
      simp only [Bool.false_eq_true, if_false, List.nil_append] at hfix2
      have hxlen : x.length = (x.dropWhile pre).length := by
        have e1 := congrArg List.length hfix2
        rw [List.length_append, List.length_map] at e1
        have e2 := congrArg List.length
          (List.take_append_drop tok.length (x.dropWhile pre))
        rw [List.length_append] at e2
        omega
      have htwnil : x.takeWhile pre = [] := by
        have h3 : x.length = (x.takeWhile pre).length + (x.dropWhile pre).length := by
          conv_lhs => rw [← List.takeWhile_append_dropWhile pre x]
          rw [List.length_append]
        have h4 : (x.takeWhile pre).length = 0 := by omega
        exact List.length_eq_zero.mp h4
      have hdx : x.dropWhile pre = x := dropWhile_of_takeWhile_nil htwnil
      have hspnil : sp = [] := by
        rw [htwnil] at htwx
        exact (List.append_eq_nil.mp htwx.symm).1
      have hchxy : chUp x y := by
        rw [hx, hspnil, List.nil_append]
        exact hch
      have hspans2 := chUp_spans hpreUp hchxy
      have htwynil : y.takeWhile pre = [] := by
        have h5 := hspans2.1
        rw [htwnil] at h5
        exact List.length_eq_zero.mp h5.symm
      have hdy : y.dropWhile pre = y := dropWhile_of_takeWhile_nil htwynil
      have hxeq : ((x.dropWhile pre).take tok.length).map upChar ++
          (x.dropWhile pre).drop tok.length =
          (x.dropWhile pre).take tok.length ++ (x.dropWhile pre).drop tok.length :=
        hfix2.trans (hdx.symm.trans (List.take_append_drop tok.length (x.dropWhile pre)).symm)
      have hcancel : ((x.dropWhile pre).take tok.length).map upChar =
          (x.dropWhile pre).take tok.length :=
        (List.append_inj hxeq (by rw [List.length_map])).1
      have hmy : (y.dropWhile pre).take tok.length = (x.dropWhile pre).take tok.length :=
        chUp_fix_upper hm hcancel
      rw [anchorStep_pos hcy]
      simp only [Bool.false_eq_true, if_false, List.nil_append]
      rw [hmy, hcancel, ← hmy, List.take_append_drop, hdy]

theorem anchorFold_nil (pre : Char → Bool) (post : List Char → Bool) (keep : Bool)
    (l : List Char) : anchorFold pre post keep [] l = l := rfl

theorem anchorFold_cons (pre : Char → Bool) (post : List Char → Bool) (keep : Bool)
    (tok : List Char) (toks : List (List Char)) (l : List Char) :
    anchorFold pre post keep (tok :: toks) l =
      anchorFold pre post keep toks (anchorStep pre post keep tok l) := rfl

theorem anchorFold_wsUp {pre : Char → Bool} {post : List Char → Bool} {keep : Bool}
    {toks : List (List Char)}
    (hS : ∀ tok ∈ toks, ∀ l, wsUp l (anchorStep pre post keep tok l)) :
    ∀ l, wsUp l (anchorFold pre post keep toks l) := by
  induction toks with
  | nil => intro l; exact wsUp_refl l
  | cons tok toks ih =>
    intro l
    rw [anchorFold_cons]
    exact wsUp_trans (hS tok (List.mem_cons_self _ _) l)
      (ih (fun t ht l2 => hS t (List.mem_cons_of_mem _ ht) l2) _)

theorem anchorFold_fix_wsUp {pre : Char → Bool} {post : List Char → Bool} {keep : Bool}
    {toks : List (List Char)}
    (hS : ∀ tok ∈ toks, ∀ l, wsUp l (anchorStep pre post keep tok l))
    (hT : ∀ tok ∈ toks, ∀ x y, wsUp x y → anchorStep pre post keep tok x = x →
      anchorStep pre post keep tok y = y) :
    ∀ x y, wsUp x y → anchorFold pre post keep toks x = x →
      anchorFold pre post keep toks y = y := by
  induction toks with
  | nil => intro x y _ _; rfl
  | cons tok toks ih =>
    intro x y hxy hfix
    rw [anchorFold_cons] at hfix ⊢
    have hstep : anchorStep pre post keep tok x = x := by
      refine wsUp_sandwich (hS tok (List.mem_cons_self _ _) x) ?_ hfix
      exact anchorFold_wsUp (fun t ht l2 => hS t (List.mem_cons_of_mem _ ht) l2) _
    rw [hstep] at hfix
    rw [hT tok (List.mem_cons_self _ _) x y hxy hstep]
    exact ih (fun t ht l2 => hS t (List.mem_cons_of_mem _ ht) l2)
      (fun t ht => hT t (List.mem_cons_of_mem _ ht)) x y hxy hfix

theorem anchorStep_fix_fold {pre : Char → Bool} {post : List Char → Bool} {keep : Bool}
    {tok : List Char} {toks : List (List Char)}
    (hS : ∀ t ∈ toks, ∀ l, wsUp l (anchorStep pre post keep t l))
    (hT : ∀ x y, wsUp x y → anchorStep pre post keep tok x = x →
      anchorStep pre post keep tok y = y)
    {m : List Char} (hfix : anchorStep pre post keep tok m = m) :
    anchorStep pre post keep tok (anchorFold pre post keep toks m) =
      anchorFold pre post keep toks m :=
  hT m _ (anchorFold_wsUp hS m) hfix

theorem anchorFold_idem {pre : Char → Bool} {post : List Char → Bool} {keep : Bool}
    {toks : List (List Char)}
    (hS : ∀ tok ∈ toks, ∀ l, wsUp l (anchorStep pre post keep tok l))
    (hT : ∀ tok ∈ toks, ∀ x y, wsUp x y → anchorStep pre post keep tok x = x →
      anchorStep pre post keep tok y = y)
    (hE : ∀ tok ∈ toks, ∀ l, anchorStep pre post keep tok (anchorStep pre post keep tok l) =
      anchorStep pre post keep tok l) :
    ∀ l, anchorFold pre post keep toks (anchorFold pre post keep toks l) =
      anchorFold pre post keep toks l := by
  induction toks with
  | nil => intro l; rfl
  | cons tok toks ih =>
    intro l
    rw [anchorFold_cons, anchorFold_cons]
    have h1 : anchorStep pre post keep tok
        (anchorFold pre post keep toks (anchorStep pre post keep tok l)) =
        anchorFold pre post keep toks (anchorStep pre post keep tok l) :=
      anchorStep_fix_fold (fun t ht => hS t (List.mem_cons_of_mem _ ht))
        (hT tok (List.mem_cons_self _ _)) (hE tok (List.mem_cons_self _ _) l)
    rw [h1]
    exact ih (fun t ht => hS t (List.mem_cons_of_mem _ ht))
      (fun t ht => hT t (List.mem_cons_of_mem _ ht))
      (fun t ht => hE t (List.mem_cons_of_mem _ ht)) _

theorem anchorFold_chUp {pre : Char → Bool} {post : List Char → Bool}
    {toks : List (List Char)} :
    ∀ l, chUp l (anchorFold pre post true toks l) := by
  induction toks with
  | nil => intro l; exact chUp_refl l
  | cons tok toks ih =>
    intro l
    rw [anchorFold_cons]
    exact chUp_trans (anchorStep_chUp pre post tok l) (ih _)

theorem beq_congr_fixed {k : Char} (hk : ∀ c, upChar c = k ↔ c = k) (a : Char) :
    (upChar a == k) = (a == k) := by
  cases hb : a == k with
  | true =>
    have he := eq_of_beq hb
    subst he
    exact beq_iff_eq.mpr ((hk a).mpr rfl)
  | false =>
    rw [beq_eq_false_iff_ne] at hb ⊢
    intro hc
    exact hb ((hk a).mp hc)

theorem postTrue_congr (r r' : List Char) (h : chUp r r') : postTrue r = postTrue r' := rfl

theorem postDotEq_congr (r r' : List Char) (h : chUp r r') : postDotEq r = postDotEq r' := by
  cases h with
  | nil => rfl
  | cons hr hl =>
    rename_i a b as bs
    show (a == '.' || a == '=') = (b == '.' || b == '=')
    cases hr with
    | inl e => rw [e]
    | inr e =>
      rw [e, beq_congr_fixed upChar_eq_dot, beq_congr_fixed upChar_eq_eqs]

theorem postBoundary_congr (r r' : List Char) (h : chUp r r') :
    postBoundary r = postBoundary r' := by
  cases h with
  | nil => rfl
  | cons hr hl =>
    rename_i a b as bs
    show (!isWordChar a) = !isWordChar b
    rw [upRel_p isWordChar_upChar hr]

theorem scoped_toks_facts : ∀ tok ∈ ScopedVarTokens,
    tok ≠ [] ∧ isWS (upChar (tok.headD 'a')) = false := by decide

theorem control_toks_facts : ∀ tok ∈ ControlKeywords,
    tok ≠ [] ∧ isWS (upChar (tok.headD 'a')) = false := by decide

theorem assign_toks_facts : ∀ tok ∈ VarsKeywords.map (fun kw => kw ++ ['=']),
    tok ≠ [] ∧ isSpTab (upChar (tok.headD 'a')) = false := by decide

theorem scoped_S : ∀ tok ∈ ScopedVarTokens, ∀ l,
    wsUp l (anchorStep isWS postDotEq true tok l) :=
  fun tok _ l => wsUp_of_chUp (anchorStep_chUp isWS postDotEq tok l)

theorem scoped_T : ∀ tok ∈ ScopedVarTokens, ∀ x y, wsUp x y →
    anchorStep isWS postDotEq true tok x = x →
    anchorStep isWS postDotEq true tok y = y :=
  fun _ _ _ _ hxy hfix =>
    anchorStep_fix_wsUp isWS_upChar postDotEq_congr (fun c => isWS_of_isSpTab) hxy hfix

theorem scoped_E : ∀ tok ∈ ScopedVarTokens, ∀ l,
    anchorStep isWS postDotEq true tok (anchorStep isWS postDotEq true tok l) =
      anchorStep isWS postDotEq true tok l :=
  fun tok htok l =>
    anchorStep_idem (scoped_toks_facts tok htok).1 (scoped_toks_facts tok htok).2 l

theorem control_S : ∀ tok ∈ ControlKeywords, ∀ l,
    wsUp l (anchorStep isWS postBoundary true tok l) :=
  fun tok _ l => wsUp_of_chUp (anchorStep_chUp isWS postBoundary tok l)

theorem control_T : ∀ tok ∈ ControlKeywords, ∀ x y, wsUp x y →
    anchorStep isWS postBoundary true tok x = x →
    anchorStep isWS postBoundary true tok y = y :=
  fun _ _ _ _ hxy hfix =>
    anchorStep_fix_wsUp isWS_upChar postBoundary_congr (fun c => isWS_of_isSpTab) hxy hfix

theorem control_E : ∀ tok ∈ ControlKeywords, ∀ l,
    anchorStep isWS postBoundary true tok (anchorStep isWS postBoundary true tok l) =
      anchorStep isWS postBoundary true tok l :=
  fun tok htok l =>
    anchorStep_idem (control_toks_facts tok htok).1 (control_toks_facts tok htok).2 l

theorem assign_S : ∀ tok ∈ VarsKeywords.map (fun kw => kw ++ ['=']), ∀ l,
    wsUp l (anchorStep isSpTab postTrue false tok l) :=
  fun tok _ l => anchorStep_wsUp isSpTab postTrue (fun _ h => h) tok l

theorem assign_T : ∀ tok ∈ VarsKeywords.map (fun kw => kw ++ ['=']), ∀ x y, wsUp x y →
    anchorStep isSpTab postTrue false tok x = x →
    anchorStep isSpTab postTrue false tok y = y :=
  fun _ _ _ _ hxy hfix =>
    anchorStep_fix_wsUp isSpTab_upChar postTrue_congr (fun c h => h) hxy hfix

theorem assign_E : ∀ tok ∈ VarsKeywords.map (fun kw => kw ++ ['=']), ∀ l,
    anchorStep isSpTab postTrue false tok (anchorStep isSpTab postTrue false tok l) =
      anchorStep isSpTab postTrue false tok l :=
  fun tok htok l =>
    anchorStep_idem (assign_toks_facts tok htok).1 (assign_toks_facts tok htok).2 l

theorem formatScoped_wsUp (l : List Char) : wsUp l (formatScopedAssignments l) :=
  anchorFold_wsUp scoped_S l

theorem formatScoped_chUp (l : List Char) : chUp l (formatScopedAssignments l) :=
  anchorFold_chUp l

theorem formatScoped_fix_wsUp {x y : List Char} (hxy : wsUp x y)
    (hfix : formatScopedAssignments x = x) : formatScopedAssignments y = y :=
  anchorFold_fix_wsUp scoped_S scoped_T x y hxy hfix

theorem formatScoped_idem (l : List Char) :
    formatScopedAssignments (formatScopedAssignments l) = formatScopedAssignments l :=
  anchorFold_idem scoped_S scoped_T scoped_E l

theorem formatControl_wsUp (l : List Char) : wsUp l (formatControlKeywords l) :=
  anchorFold_wsUp control_S l

theorem formatControl_chUp (l : List Char) : chUp l (formatControlKeywords l) :=
  anchorFold_chUp l

theorem formatControl_fix_wsUp {x y : List Char} (hxy : wsUp x y)
    (hfix : formatControlKeywords x = x) : formatControlKeywords y = y :=
  anchorFold_fix_wsUp control_S control_T x y hxy hfix

theorem formatControl_idem (l : List Char) :
    formatControlKeywords (formatControlKeywords l) = formatControlKeywords l :=
  anchorFold_idem control_S control_T control_E l

theorem formatAssign_wsUp (l : List Char) : wsUp l (formatAssignmentKeywords l) :=
  anchorFold_wsUp assign_S l

theorem formatAssign_fix_wsUp {x y : List Char} (hxy : wsUp x y)
    (hfix : formatAssignmentKeywords x = x) : formatAssignmentKeywords y = y :=
  anchorFold_fix_wsUp assign_S assign_T x y hxy hfix

theorem formatAssign_idem (l : List Char) :
    formatAssignmentKeywords (formatAssignmentKeywords l) = formatAssignmentKeywords l :=
  anchorFold_idem assign_S assign_T assign_E l

/-! A generic left-to-right uppercasing scanner, of which the trigger scan
and each command-keyword scan are instances. -/

theorem length_takeWhile_le' (p : Char → Bool) (l : List Char) :
    (l.takeWhile p).length ≤ l.length := by
  induction l with
  | nil => simp
  | cons c cs ih =>
    rw [List.takeWhile_cons]
    cases hc : p c with
    | true =>
      simp only [if_true, List.length_cons]
      omega
    | false => simp

/-- Generic scanner: at each position where the boundary flag allows, try
the matcher; on a match of length `n`, uppercase those `n` characters and
continue after them, otherwise copy one character. -/
def scanGen (m? : List Char → Option (Nat × Bool)) : Nat → Bool → List Char → List Char
  | 0, _, s => s
  | _ + 1, _, [] => []
  | fuel + 1, bnd, c :: cs =>
    if bnd then
      match m? (c :: cs) with
      | some (n, bnd2) =>
        ((c :: cs).take n).map upChar ++ scanGen m? fuel bnd2 ((c :: cs).drop n)
      | none => c :: scanGen m? fuel (!isWordChar c) cs
    else c :: scanGen m? fuel (!isWordChar c) cs

theorem scanTrig_eq_scanGen : ∀ (fuel : Nat) (b : Bool) (s : List Char),
    scanTrig fuel b s = scanGen triggerMatch fuel b s := by
  intro fuel
  induction fuel with
  | zero => intro b s; rfl
  | succ f ih =>
    intro b s
    cases s with
    | nil => rfl
    | cons c cs =>
      cases b with
      | false => simp [scanTrig, scanGen, ih]
      | true =>
        cases hm : triggerMatch (c :: cs) with
        | none => simp [scanTrig, scanGen, hm, ih]
        | some nb => cases nb with
          | mk n bnd2 => simp [scanTrig, scanGen, hm, ih]

theorem triggerMatch_bounds {s : List Char} {n : Nat} {b2 : Bool}
    (h : triggerMatch s = some (n, b2)) : 1 ≤ n ∧ n ≤ s.length := by
  unfold triggerMatch at h
  by_cases hci : ciPre onAt s = true
  · rw [if_pos hci] at h
    by_cases hw : ((s.drop 4).takeWhile isWordChar).isEmpty = true
    · rw [if_pos hw] at h
      cases h
    · rw [if_neg hw] at h
      by_cases hlk : lookOk (((s.drop 4).drop ((s.drop 4).takeWhile isWordChar).length).drop
          ((((s.drop 4).drop ((s.drop 4).takeWhile isWordChar).length).takeWhile
            notWsSlash).length)) = true
      · rw [if_pos hlk] at h
        injection h with h1
        injection h1 with hn hb
        subst hn
        refine ⟨by omega, ?_⟩
        have h4 := ciPre_length_le hci
        have ho : onAt.length = 4 := rfl
        rw [ho] at h4
        have hwl := length_takeWhile_le' isWordChar (s.drop 4)
        have htl := length_takeWhile_le' notWsSlash
          ((s.drop 4).drop ((s.drop 4).takeWhile isWordChar).length)
        rw [List.length_drop] at hwl
        rw [List.length_drop, List.length_drop] at htl
        omega
      · rw [if_neg hlk] at h
        cases h
  · rw [if_neg hci] at h
    cases h

theorem scanGen_nil (m? : List Char → Option (Nat × Bool)) (fuel : Nat) (b : Bool) :
    scanGen m? fuel b [] = [] := by
  cases fuel with
  | zero => rfl
  | succ f => rfl

theorem scanGen_chUp (m? : List Char → Option (Nat × Bool)) :
    ∀ (fuel : Nat) (b : Bool) (s : List Char), chUp s (scanGen m? fuel b s) := by
  intro fuel
  induction fuel with
  | zero => intro b s; exact chUp_refl s
  | succ f ih =>
    intro b s
    cases s with
    | nil => exact chUp_refl []
    | cons c cs =>
      cases b with
      | false =>
        show chUp (c :: cs) (c :: scanGen m? f (!isWordChar c) cs)
        exact List.Forall₂.cons (Or.inl rfl) (ih _ cs)
      | true =>
        cases hm : m? (c :: cs) with
        | none =>
          simp only [scanGen, hm, if_true]
          exact List.Forall₂.cons (Or.inl rfl) (ih _ cs)
        | some nb =>
          cases nb with
          | mk n b2 =>
            simp only [scanGen, hm, if_true]
            conv_lhs => rw [← List.take_append_drop n (c :: cs)]
            exact chUp_append (chUp_mapUp _) (ih b2 _)

theorem scanGen_cons_false {m? : List Char → Option (Nat × Bool)} {f : Nat}
    {c : Char} {cs : List Char} :
    scanGen m? (f + 1) false (c :: cs) = c :: scanGen m? f (!isWordChar c) cs := by
  simp [scanGen]

theorem scanGen_cons_none {m? : List Char → Option (Nat × Bool)} {f : Nat}
    {c : Char} {cs : List Char} (hm : m? (c :: cs) = none) :
    scanGen m? (f + 1) true (c :: cs) = c :: scanGen m? f (!isWordChar c) cs := by
  simp [scanGen, hm]

theorem scanGen_cons_some {m? : List Char → Option (Nat × Bool)} {f n : Nat} {b2 : Bool}
    {c : Char} {cs : List Char} (hm : m? (c :: cs) = some (n, b2)) :
    scanGen m? (f + 1) true (c :: cs) =
      ((c :: cs).take n).map upChar ++ scanGen m? f b2 ((c :: cs).drop n) := by
  simp [scanGen, hm]

theorem scanGen_length {m? : List Char → Option (Nat × Bool)}
    (hb : ∀ s n b2, m? s = some (n, b2) → 1 ≤ n ∧ n ≤ s.length) :
    ∀ (fuel : Nat) (b : Bool) (s : List Char), s.length ≤ fuel →
      (scanGen m? fuel b s).length = s.length := by
  intro fuel
  induction fuel with
  | zero => intro b s h; rfl
  | succ f ih =>
    intro b s h
    cases s with
    | nil => rfl
    | cons c cs =>
      have hcs : cs.length ≤ f := by
        simp only [List.length_cons] at h
        omega
      cases b with
      | false =>
        rw [scanGen_cons_false, List.length_cons, List.length_cons, ih _ cs hcs]
      | true =>
        cases hm : m? (c :: cs) with
        | none =>
          rw [scanGen_cons_none hm, List.length_cons, List.length_cons, ih _ cs hcs]
        | some nb =>
          cases nb with
          | mk n b2 =>
            obtain ⟨hn1, hn2⟩ := hb _ _ _ hm
            have hdrop : ((c :: cs).drop n).length ≤ f := by
              rw [List.length_drop]
              simp only [List.length_cons] at hn2 ⊢
              omega
            rw [scanGen_cons_some hm, List.length_append, List.length_map,
              List.length_take, ih b2 _ hdrop, List.length_drop, Nat.min_eq_left hn2]
            omega

theorem scanGen_fuel {m? : List Char → Option (Nat × Bool)}
    (hb : ∀ s n b2, m? s = some (n, b2) → 1 ≤ n ∧ n ≤ s.length) :
    ∀ (f g : Nat) (b : Bool) (s : List Char), s.length ≤ f → s.length ≤ g →
      scanGen m? f b s = scanGen m? g b s := by
  intro f
  induction f with
  | zero =>
    intro g b s hf hg
    have hs : s = [] := List.eq_nil_of_length_eq_zero (Nat.le_zero.mp hf)
    subst hs
    rw [scanGen_nil, scanGen_nil]
  | succ f ih =>
    intro g b s hf hg
    cases s with
    | nil => rw [scanGen_nil, scanGen_nil]
    | cons c cs =>
      cases g with
      | zero => simp at hg
      | succ g' =>
        have hcsf : cs.length ≤ f := by
          simp only [List.length_cons] at hf
          omega
        have hcsg : cs.length ≤ g' := by
          simp only [List.length_cons] at hg
          omega
        cases b with
        | false =>
          rw [scanGen_cons_false, scanGen_cons_false,
            ih g' (!isWordChar c) cs hcsf hcsg]
        | true =>
          cases hm : m? (c :: cs) with
          | none =>
            rw [scanGen_cons_none hm, scanGen_cons_none hm,
              ih g' (!isWordChar c) cs hcsf hcsg]
          | some nb =>
            cases nb with
            | mk n b2 =>
              obtain ⟨hn1, hn2⟩ := hb _ _ _ hm
              have hd1 : ((c :: cs).drop n).length ≤ f := by
                rw [List.length_drop]
                simp only [List.length_cons] at hn2 hf ⊢
                omega
              have hd2 : ((c :: cs).drop n).length ≤ g' := by
                rw [List.length_drop]
                simp only [List.length_cons] at hn2 hg ⊢
                omega
              rw [scanGen_cons_some hm, scanGen_cons_some hm,
                ih g' b2 _ hd1 hd2]

theorem scanGen_transport {m? : List Char → Option (Nat × Bool)}
    (hc : ∀ s t, s.map upChar = t.map upChar → m? s = m? t) :
    ∀ (f : Nat) (b : Bool) (s t : List Char), chUp s t →
      scanGen m? f b s = s → scanGen m? f b t = t := by
  intro f
  induction f with
  | zero => intro b s t _ _; rfl
  | succ f ih =>
    intro b s t hst hfix
    cases hst with
    | nil => rfl
    | cons hr hl =>
      rename_i c d cs ds
      have hbd : (!isWordChar d) = !isWordChar c := by
        rw [upRel_p isWordChar_upChar hr]
      cases b with
      | false =>
        rw [scanGen_cons_false] at hfix
        injection hfix with h1 h2
        rw [scanGen_cons_false, hbd, ih (!isWordChar c) cs ds hl h2]
      | true =>
        have hmap : (c :: cs).map upChar = (d :: ds).map upChar :=
          (chUp_upEq (List.Forall₂.cons hr hl)).symm
        cases hm : m? (c :: cs) with
        | none =>
          have hm2 : m? (d :: ds) = none := by
            rw [← hc _ _ hmap]
            exact hm
          rw [scanGen_cons_none hm] at hfix
          injection hfix with h1 h2
          rw [scanGen_cons_none hm2, hbd, ih (!isWordChar c) cs ds hl h2]
        | some nb =>
          cases nb with
          | mk n b2 =>
            have hm2 : m? (d :: ds) = some (n, b2) := by
              rw [← hc _ _ hmap]
              exact hm
            rw [scanGen_cons_some hm] at hfix
            have hfix2 := hfix.trans (List.take_append_drop n (c :: cs)).symm
            have hinj := List.append_inj hfix2 (by rw [List.length_map])
            have hch_take : chUp ((c :: cs).take n) ((d :: ds).take n) :=
              chUp_take n (List.Forall₂.cons hr hl)
            have hmy : (d :: ds).take n = (c :: cs).take n :=
              chUp_fix_upper hch_take hinj.1
            rw [scanGen_cons_some hm2, hmy, hinj.1, ← hmy,
              ih b2 _ _ (chUp_drop n (List.Forall₂.cons hr hl)) hinj.2]
            exact List.take_append_drop n (d :: ds)

theorem scanGen_idem {m? : List Char → Option (Nat × Bool)}
    (hb : ∀ s n b2, m? s = some (n, b2) → 1 ≤ n ∧ n ≤ s.length)
    (hc : ∀ s t, s.map upChar = t.map upChar → m? s = m? t) :
    ∀ (f : Nat) (b : Bool) (s : List Char),
      scanGen m? f b (scanGen m? f b s) = scanGen m? f b s := by
  intro f
  induction f with
  | zero => intro b s; rfl
  | succ f ih =>
    intro b s
    cases s with
    | nil => rw [scanGen_nil, scanGen_nil]
    | cons c cs =>
      cases b with
      | false =>
        rw [scanGen_cons_false, scanGen_cons_false, ih]
      | true =>
        cases hm : m? (c :: cs) with
        | none =>
          rw [scanGen_cons_none hm]
          have hmap : (c :: scanGen m? f (!isWordChar c) cs).map upChar =
              (c :: cs).map upChar := by
            simp only [List.map_cons]
            rw [chUp_upEq (scanGen_chUp m? f (!isWordChar c) cs)]
          have hm2 : m? (c :: scanGen m? f (!isWordChar c) cs) = none := by
            rw [hc _ _ hmap]
            exact hm
          rw [scanGen_cons_none hm2, ih]
        | some nb =>
          cases nb with
          | mk n b2 =>
            obtain ⟨hn1, hn2⟩ := hb _ _ _ hm
            rw [scanGen_cons_some hm]
            have hmapR : (scanGen m? f b2 ((c :: cs).drop n)).map upChar =
                ((c :: cs).drop n).map upChar :=
              chUp_upEq (scanGen_chUp m? f b2 ((c :: cs).drop n))
            have hmap : (((c :: cs).take n).map upChar ++
                scanGen m? f b2 ((c :: cs).drop n)).map upChar =
                (c :: cs).map upChar := by
              rw [List.map_append, mapUp_idem, hmapR, ← List.map_append,
                List.take_append_drop]
            have hm2 : m? (((c :: cs).take n).map upChar ++
                scanGen m? f b2 ((c :: cs).drop n)) = some (n, b2) := by
              rw [hc _ _ hmap]
              exact hm
            obtain ⟨k, hk⟩ : ∃ k, n = k + 1 := ⟨n - 1, by omega⟩
            subst hk
            rw [List.take_succ_cons, List.map_cons, List.cons_append] at hm2 ⊢
            rw [scanGen_cons_some hm2]
            rw [← List.cons_append, ← List.map_cons, ← List.take_succ_cons]
            have hlenM : (((c :: cs).take (k + 1)).map upChar).length = k + 1 := by
              rw [List.length_map, List.length_take, Nat.min_eq_left hn2]
            rw [List.take_left' hlenM, List.drop_left' hlenM, mapUp_idem, ih]

theorem scanGen_ws_skip {m? : List Char → Option (Nat × Bool)}
    (hb : ∀ s n b2, m? s = some (n, b2) → 1 ≤ n ∧ n ≤ s.length)
    (hws : ∀ c cs, isWS c = true → m? (c :: cs) = none) :
    ∀ (sp r : List Char) (f g : Nat), sp.all isWS = true →
      (sp ++ r).length ≤ f → r.length ≤ g →
      scanGen m? f true (sp ++ r) = sp ++ scanGen m? g true r := by
  intro sp
  induction sp with
  | nil =>
    intro r f g _ hf hg
    rw [List.nil_append, List.nil_append]
    exact scanGen_fuel hb f g true r (by simpa using hf) hg
  | cons c sp ih =>
    intro r f g hall hf hg
    rw [List.all_cons, Bool.and_eq_true] at hall
    cases f with
    | zero => simp at hf
    | succ f' =>
      rw [List.cons_append, scanGen_cons_none (hws c _ hall.1)]
      have hword : (!isWordChar c) = true := by rw [ws_not_word hall.1]; rfl
      rw [hword, ih r f' g hall.2
        (by simp only [List.cons_append, List.length_cons] at hf; omega) hg]
      rfl

theorem scanGen_fix_upper {m? : List Char → Option (Nat × Bool)} (f : Nat) (b : Bool)
    {l : List Char} (h : l.map upChar = l) : scanGen m? f b l = l :=
  chUp_fix_upper (scanGen_chUp m? f b l) h

/-! Congruence of the trigger matcher under case folding, and its failure at
whitespace; the trigger scan lemmas then follow from the generic scanner. -/

theorem isEmpty_congr_len {a b : List Char} (h : a.length = b.length) :
    a.isEmpty = b.isEmpty := by
  cases a with
  | nil =>
    cases b with
    | nil => rfl
    | cons d ds => simp at h
  | cons c cs =>
    cases b with
    | nil => simp at h
    | cons d ds => rfl

theorem lookOk_congr {a b : List Char} (h : a.map upChar = b.map upChar) :
    lookOk a = lookOk b := by
  cases a with
  | nil =>
    cases b with
    | nil => rfl
    | cons d ds => simp at h
  | cons c cs =>
    cases b with
    | nil => simp at h
    | cons d ds =>
      simp only [List.map_cons, List.cons.injEq] at h
      show isWS c = isWS d
      rw [← isWS_upChar c, h.1, isWS_upChar]

theorem trigBnd_congr {a b : List Char} (h : a.map upChar = b.map upChar) :
    trigBnd a = trigBnd b := by
  have hg : a.getLast?.map upChar = b.getLast?.map upChar := by
    rw [← List.getLast?_map, ← List.getLast?_map, h]
  unfold trigBnd
  cases ha : a.getLast? with
  | none =>
    cases hb : b.getLast? with
    | none => rfl
    | some y => rw [ha, hb] at hg; simp at hg
  | some x =>
    cases hb : b.getLast? with
    | none => rw [ha, hb] at hg; simp at hg
    | some y =>
      rw [ha, hb] at hg
      simp only [Option.map_some'] at hg
      have hxy : upChar x = upChar y := by injection hg
      show (!isWordChar x) = !isWordChar y
      rw [← isWordChar_upChar x, hxy, isWordChar_upChar]

theorem mapUp_spans {p : Char → Bool} (hp : ∀ c, p (upChar c) = p c) :
    ∀ {s t : List Char}, s.map upChar = t.map upChar →
      (s.takeWhile p).length = (t.takeWhile p).length ∧
      (s.takeWhile p).map upChar = (t.takeWhile p).map upChar ∧
      (s.dropWhile p).map upChar = (t.dropWhile p).map upChar := by
  intro s
  induction s with
  | nil =>
    intro t h
    cases t with
    | nil => exact ⟨rfl, rfl, rfl⟩
    | cons d ds => simp at h
  | cons c cs ih =>
    intro t h
    cases t with
    | nil => simp at h
    | cons d ds =>
      simp only [List.map_cons, List.cons.injEq] at h
      have hpcd : p c = p d := by rw [← hp c, h.1, hp d]
      cases hpc : p c with
      | true =>
        have hpd : p d = true := by rw [← hpcd]; exact hpc
        obtain ⟨l1, l2, l3⟩ := ih h.2
        rw [List.takeWhile_cons, List.takeWhile_cons, List.dropWhile_cons,
          List.dropWhile_cons, hpc, hpd]
        simp only [if_true, List.length_cons, List.map_cons]
        refine ⟨by omega, ?_, l3⟩
        rw [h.1, l2]
      | false =>
        have hpd : p d = false := by rw [← hpcd]; exact hpc
        rw [List.takeWhile_cons, List.takeWhile_cons, List.dropWhile_cons,
          List.dropWhile_cons, hpc, hpd]
        simp only [Bool.false_eq_true, if_false]
        refine ⟨by simp, by simp, ?_⟩
        rw [List.map_cons, List.map_cons, h.1, h.2]

theorem triggerMatch_congr {s t : List Char} (h : s.map upChar = t.map upChar) :
    triggerMatch s = triggerMatch t := by
  have hd4 : (s.drop 4).map upChar = (t.drop 4).map upChar := by
    rw [List.map_drop, List.map_drop, h]
  obtain ⟨w1, w2, w3⟩ := mapUp_spans isWordChar_upChar hd4
  have hs2 : ((s.drop 4).drop ((s.drop 4).takeWhile isWordChar).length).map upChar =
      ((t.drop 4).drop ((t.drop 4).takeWhile isWordChar).length).map upChar := by
    rw [w1, List.map_drop, hd4, ← List.map_drop]
  obtain ⟨t1, t2, t3⟩ := mapUp_spans notWsSlash_upChar hs2
  have e1 : ciPre onAt s = ciPre onAt t := ciPre_congr h
  have e3 : ((s.drop 4).takeWhile isWordChar).isEmpty =
      ((t.drop 4).takeWhile isWordChar).isEmpty := isEmpty_congr_len w1
  have e4 : lookOk (((s.drop 4).drop ((s.drop 4).takeWhile isWordChar).length).drop
        ((((s.drop 4).drop ((s.drop 4).takeWhile isWordChar).length).takeWhile
          notWsSlash).length)) =
      lookOk (((t.drop 4).drop ((t.drop 4).takeWhile isWordChar).length).drop
        ((((t.drop 4).drop ((t.drop 4).takeWhile isWordChar).length).takeWhile
          notWsSlash).length)) := by
    rw [drop_len_takeWhile notWsSlash
        ((s.drop 4).drop ((s.drop 4).takeWhile isWordChar).length),
      drop_len_takeWhile notWsSlash
        ((t.drop 4).drop ((t.drop 4).takeWhile isWordChar).length)]
    exact lookOk_congr t3
  have e5 : trigBnd (((s.drop 4).drop ((s.drop 4).takeWhile isWordChar).length).takeWhile
        notWsSlash) =
      trigBnd (((t.drop 4).drop ((t.drop 4).takeWhile isWordChar).length).takeWhile
        notWsSlash) := trigBnd_congr t2
  unfold triggerMatch
  by_cases h1 : ciPre onAt s = true
  · have h1t : ciPre onAt t = true := by rw [← e1]; exact h1
    rw [if_pos h1, if_pos h1t]
    by_cases h2 : ((s.drop 4).takeWhile isWordChar).isEmpty = true
    · have h2t : ((t.drop 4).takeWhile isWordChar).isEmpty = true := by
        rw [← e3]; exact h2
      rw [if_pos h2, if_pos h2t]
    · have h2t : ¬ ((t.drop 4).takeWhile isWordChar).isEmpty = true := by
        rw [← e3]; exact h2
      rw [if_neg h2, if_neg h2t]
      by_cases h3 : lookOk (((s.drop 4).drop ((s.drop 4).takeWhile isWordChar).length).drop
          ((((s.drop 4).drop ((s.drop 4).takeWhile isWordChar).length).takeWhile
            notWsSlash).length)) = true
      · have h3t : lookOk (((t.drop 4).drop
            ((t.drop 4).takeWhile isWordChar).length).drop
            ((((t.drop 4).drop ((t.drop 4).takeWhile isWordChar).length).takeWhile
              notWsSlash).length)) = true := by
          rw [← e4]; exact h3
        rw [if_pos h3, if_pos h3t, t1, e5, w1]
      · have h3t : ¬ lookOk (((t.drop 4).drop
            ((t.drop 4).takeWhile isWordChar).length).drop
            ((((t.drop 4).drop ((t.drop 4).takeWhile isWordChar).length).takeWhile
              notWsSlash).length)) = true := by
          rw [← e4]; exact h3
        rw [if_neg h3, if_neg h3t]
  · have h1t : ¬ ciPre onAt t = true := by rw [← e1]; exact h1
    rw [if_neg h1, if_neg h1t]

theorem triggerMatch_ws {c : Char} {cs : List Char} (h : isWS c = true) :
    triggerMatch (c :: cs) = none := by
  have hcp : ciPre onAt (c :: cs) = false := by
    show ((upChar 'o' == upChar c) && ciPre ['n', '=', '@'] cs) = false
    rw [upChar_ws h]
    have : (upChar 'o' == c) = false := by
      rcases ws_chars h with hc | hc | hc | hc | hc | hc <;> subst hc <;> decide
    rw [this, Bool.false_and]
  unfold triggerMatch
  rw [hcp]
  rfl

theorem formatTriggers_chUp (l : List Char) : chUp l (formatTriggers l) := by
  unfold formatTriggers
  rw [scanTrig_eq_scanGen]
  exact scanGen_chUp triggerMatch l.length true l

theorem formatTriggers_idem (l : List Char) :
    formatTriggers (formatTriggers l) = formatTriggers l := by
  unfold formatTriggers
  rw [scanTrig_eq_scanGen, scanTrig_eq_scanGen]
  have hlen : (scanGen triggerMatch l.length true l).length = l.length :=
    scanGen_length (fun _ _ _ h => triggerMatch_bounds h) l.length true l (le_refl _)
  rw [hlen]
  exact scanGen_idem (fun _ _ _ h => triggerMatch_bounds h)
    (fun _ _ h => triggerMatch_congr h) l.length true l

theorem formatTriggers_fix_wsUp {x y : List Char} (hxy : wsUp x y)
    (hfix : formatTriggers x = x) : formatTriggers y = y := by
  obtain ⟨sp, x0, hx, hsp, hch⟩ := hxy
  have hspws : sp.all isWS = true := by
    rw [List.all_eq_true] at hsp ⊢
    intro c hc
    exact isWS_of_isSpTab (hsp c hc)
  unfold formatTriggers at hfix ⊢
  rw [scanTrig_eq_scanGen] at hfix ⊢
  subst hx
  rw [scanGen_ws_skip (fun _ _ _ h => triggerMatch_bounds h)
    (fun _ _ h => triggerMatch_ws h) sp x0 (sp ++ x0).length x0.length hspws
    (le_refl _) (le_refl _)] at hfix
  have hfix0 := List.append_cancel_left hfix
  have hlen : y.length = x0.length := (chUp_length hch).symm
  rw [hlen]
  exact scanGen_transport (fun _ _ h => triggerMatch_congr h) x0.length true x0 y hch hfix0

/-! The command matcher as a `scanGen` instance. -/

/-- The command regex match at the head of `s`, packaged for `scanGen`: on
success the match length is the keyword's length and the boundary flag after
the match is determined by the keyword's last character. -/
def cmdMatch? (f : List Char) (s : List Char) : Option (Nat × Bool) :=
  if cmdMatchB f s then some (f.length, !isWordChar (f.getLastD 'A')) else none

theorem scanCmd_eq_scanGen {f : List Char} (hf : f.map upChar = f) :
    ∀ (fuel : Nat) (b : Bool) (s : List Char),
      scanCmd f fuel b s = scanGen (cmdMatch? f) fuel b s := by
  intro fuel
  induction fuel with
  | zero => intro b s; rfl
  | succ fl ih =>
    intro b s
    cases s with
    | nil => rfl
    | cons c cs =>
      cases b with
      | false => simp [scanCmd, scanGen, ih]
      | true =>
        cases hcm : cmdMatchB f (c :: cs) with
        | false => simp [scanCmd, scanGen, cmdMatch?, hcm, ih]
        | true =>
          have hciP : ciPre f (c :: cs) = true := by
            unfold cmdMatchB at hcm
            rw [Bool.and_eq_true] at hcm
            exact hcm.1
          have hemit : ((c :: cs).take f.length).map upChar = f := by
            rw [ciPre_take_mapUp hciP, hf]
          simp [scanCmd, scanGen, cmdMatch?, hcm, ih, hemit]

theorem cmd_facts : ∀ f ∈ commandKeywords, f ≠ [] ∧ f.map upChar = f ∧
    f.all isWordChar = true := by decide

theorem cmdMatch_bounds {f : List Char} (hne : f ≠ []) :
    ∀ s n b2, cmdMatch? f s = some (n, b2) → 1 ≤ n ∧ n ≤ s.length := by
  intro s n b2 h
  unfold cmdMatch? at h
  by_cases hcm : cmdMatchB f s = true
  · rw [if_pos hcm] at h
    injection h with h1
    injection h1 with hn hb
    subst hn
    have hci : ciPre f s = true := by
      unfold cmdMatchB at hcm
      rw [Bool.and_eq_true] at hcm
      exact hcm.1
    refine ⟨?_, ciPre_length_le hci⟩
    cases f with
    | nil => exact absurd rfl hne
    | cons f0 fs => simp
  · rw [if_neg hcm] at h
    cases h

theorem word_not_ws {c : Char} (h : isWordChar c = true) : isWS c = false := by
  cases h2 : isWS c with
  | false => rfl
  | true => rw [ws_not_word h2] at h; cases h

theorem beq_fixed_of_upEq {k : Char} (hk : ∀ c, upChar c = k ↔ c = k) {a b : Char}
    (hup : upChar a = upChar b) : (a == k) = (b == k) := by
  cases hb : b == k with
  | true =>
    have he := eq_of_beq hb
    subst he
    have ha : upChar a = b := by rw [hup]; exact (hk b).mpr rfl
    exact beq_iff_eq.mpr ((hk a).mp ha)
  | false =>
    rw [beq_eq_false_iff_ne] at hb ⊢
    intro he
    subst he
    have hbk : upChar b = a := by rw [← hup]; exact (hk a).mpr rfl
    exact hb ((hk b).mp hbk)

theorem cmdMatchB_congr {f s t : List Char} (h : s.map upChar = t.map upChar) :
    cmdMatchB f s = cmdMatchB f t := by
  unfold cmdMatchB
  rw [ciPre_congr h]
  have hd : (s.drop f.length).map upChar = (t.drop f.length).map upChar := by
    rw [List.map_drop, List.map_drop, h]
  congr 1
  cases hs : s.drop f.length with
  | nil =>
    cases ht : t.drop f.length with
    | nil => rfl
    | cons d ds => rw [hs, ht] at hd; simp at hd
  | cons c cs =>
    cases ht : t.drop f.length with
    | nil => rw [hs, ht] at hd; simp at hd
    | cons d ds =>
      rw [hs, ht] at hd
      simp only [List.map_cons, List.cons.injEq] at hd
      show (isWS c || c == '(') = (isWS d || d == '(')
      rw [← isWS_upChar c, hd.1, isWS_upChar, beq_fixed_of_upEq upChar_eq_lparen hd.1]

theorem cmdMatch_congr {f : List Char} : ∀ s t, s.map upChar = t.map upChar →
    cmdMatch? f s = cmdMatch? f t := by
  intro s t h
  unfold cmdMatch?
  rw [cmdMatchB_congr h]

theorem cmdMatch_ws {f : List Char} (hword : f.all isWordChar = true) (hne : f ≠ [])
    {c : Char} {cs : List Char} (h : isWS c = true) : cmdMatch? f (c :: cs) = none := by
  cases f with
  | nil => exact absurd rfl hne
  | cons f0 fs =>
    rw [List.all_cons, Bool.and_eq_true] at hword
    have hci : ciPre (f0 :: fs) (c :: cs) = false := by
      show ((upChar f0 == upChar c) && ciPre fs cs) = false
      rw [upChar_ws h]
      have hb : (upChar f0 == c) = false := by
        rw [beq_eq_false_iff_ne]
        intro he
        have hw : isWordChar (upChar f0) = true := by
          rw [isWordChar_upChar]
          exact hword.1
        rw [he, ws_not_word h] at hw
        cases hw
      rw [hb, Bool.false_and]
    unfold cmdMatch? cmdMatchB
    rw [hci, Bool.false_and]
    rfl

theorem cmdStep_chUp {f : List Char} (hf : f.map upChar = f) (l : List Char) :
    chUp l (scanCmd f l.length true l) := by
  rw [scanCmd_eq_scanGen hf]
  exact scanGen_chUp (cmdMatch? f) l.length true l

theorem cmdStep_idem {f : List Char} (hf : f.map upChar = f) (hne : f ≠ [])
    (l : List Char) :
    scanCmd f (scanCmd f l.length true l).length true (scanCmd f l.length true l) =
      scanCmd f l.length true l := by
  rw [scanCmd_eq_scanGen hf, scanCmd_eq_scanGen hf]
  have hlen : (scanGen (cmdMatch? f) l.length true l).length = l.length :=
    scanGen_length (cmdMatch_bounds hne) l.length true l (le_refl _)
  rw [hlen]
  exact scanGen_idem (cmdMatch_bounds hne) cmdMatch_congr l.length true l

theorem cmdStep_fix_wsUp {f : List Char} (hf : f.map upChar = f) (hne : f ≠ [])
    (hword : f.all isWordChar = true) {x y : List Char} (hxy : wsUp x y)
    (hfix : scanCmd f x.length true x = x) : scanCmd f y.length true y = y := by
  obtain ⟨sp, x0, hx, hsp, hch⟩ := hxy
  have hspws : sp.all isWS = true := by
    rw [List.all_eq_true] at hsp ⊢
    intro c hc
    exact isWS_of_isSpTab (hsp c hc)
  rw [scanCmd_eq_scanGen hf] at hfix ⊢
  subst hx
  rw [scanGen_ws_skip (cmdMatch_bounds hne)
    (fun _ _ h => cmdMatch_ws hword hne h) sp x0 (sp ++ x0).length x0.length hspws
    (le_refl _) (le_refl _)] at hfix
  have hfix0 := List.append_cancel_left hfix
  have hlen : y.length = x0.length := (chUp_length hch).symm
  rw [hlen]
  exact scanGen_transport cmdMatch_congr x0.length true x0 y hch hfix0

theorem cmdFold_nil (l : List Char) : cmdFold [] l = l := rfl

theorem cmdFold_cons (f : List Char) (fs : List (List Char)) (l : List Char) :
    cmdFold (f :: fs) l = cmdFold fs (scanCmd f l.length true l) := rfl

theorem cmdFold_wsUp {fs : List (List Char)}
    (hm : ∀ f ∈ fs, f ≠ [] ∧ f.map upChar = f ∧ f.all isWordChar = true) :
    ∀ l, wsUp l (cmdFold fs l) := by
  induction fs with
  | nil => intro l; exact wsUp_refl l
  | cons f fs ih =>
    intro l
    rw [cmdFold_cons]
    refine wsUp_trans (wsUp_of_chUp (cmdStep_chUp (hm f (List.mem_cons_self _ _)).2.1 l))
      (ih (fun t ht => hm t (List.mem_cons_of_mem _ ht)) _)

theorem cmdFold_fix_wsUp {fs : List (List Char)}
    (hm : ∀ f ∈ fs, f ≠ [] ∧ f.map upChar = f ∧ f.all isWordChar = true) :
    ∀ x y, wsUp x y → cmdFold fs x = x → cmdFold fs y = y := by
  induction fs with
  | nil => intro x y _ _; rfl
  | cons f fs ih =>
    intro x y hxy hfix
    rw [cmdFold_cons] at hfix ⊢
    obtain ⟨hne, hf, hword⟩ := hm f (List.mem_cons_self _ _)
    have hstep : scanCmd f x.length true x = x := by
      refine wsUp_sandwich (wsUp_of_chUp (cmdStep_chUp hf x)) ?_ hfix
      exact cmdFold_wsUp (fun t ht => hm t (List.mem_cons_of_mem _ ht)) _
    rw [hstep] at hfix
    rw [cmdStep_fix_wsUp hf hne hword hxy hstep]
    exact ih (fun t ht => hm t (List.mem_cons_of_mem _ ht)) x y hxy hfix

theorem cmdStep_fix_fold {f : List Char} {fs : List (List Char)}
    (hm : ∀ t ∈ fs, t ≠ [] ∧ t.map upChar = t ∧ t.all isWordChar = true)
    (hf : f.map upChar = f) (hne : f ≠ []) (hword : f.all isWordChar = true)
    {m : List Char} (hfix : scanCmd f m.length true m = m) :
    scanCmd f (cmdFold fs m).length true (cmdFold fs m) = cmdFold fs m :=
  cmdStep_fix_wsUp hf hne hword (cmdFold_wsUp hm m) hfix

theorem cmdFold_idem {fs : List (List Char)}
    (hm : ∀ f ∈ fs, f ≠ [] ∧ f.map upChar = f ∧ f.all isWordChar = true) :
    ∀ l, cmdFold fs (cmdFold fs l) = cmdFold fs l := by
  induction fs with
  | nil => intro l; rfl
  | cons f fs ih =>
    intro l
    rw [cmdFold_cons, cmdFold_cons]
    obtain ⟨hne, hf, hword⟩ := hm f (List.mem_cons_self _ _)
    have h1 := cmdStep_fix_fold (fun t ht => hm t (List.mem_cons_of_mem _ ht))
      hf hne hword (cmdStep_idem hf hne l)
    rw [h1]
    exact ih (fun t ht => hm t (List.mem_cons_of_mem _ ht)) _

theorem cmdFold_chUp {fs : List (List Char)} (hm : ∀ f ∈ fs, f.map upChar = f) :
    ∀ l, chUp l (cmdFold fs l) := by
  induction fs with
  | nil => intro l; exact chUp_refl l
  | cons f fs ih =>
    intro l
    rw [cmdFold_cons]
    exact chUp_trans (cmdStep_chUp (hm f (List.mem_cons_self _ _)) l)
      (ih (fun t ht => hm t (List.mem_cons_of_mem _ ht)) _)

theorem formatCommandCalls_chUp (l : List Char) : chUp l (formatCommandCalls l) :=
  cmdFold_chUp (fun f hf => (cmd_facts f hf).2.1) l

theorem formatCommandCalls_idem (l : List Char) :
    formatCommandCalls (formatCommandCalls l) = formatCommandCalls l :=
  cmdFold_idem cmd_facts l

theorem formatCommandCalls_fix_wsUp {x y : List Char} (hxy : wsUp x y)
    (hfix : formatCommandCalls x = x) : formatCommandCalls y = y :=
  cmdFold_fix_wsUp cmd_facts x y hxy hfix

/-! Lemmas about the section-header rule. -/

theorem trimRight_decomp (l : List Char) :
    ∃ tr, l = trimRightWS l ++ tr ∧ tr.all isWS = true := by
  refine ⟨(l.reverse.takeWhile isWS).reverse, ?_, ?_⟩
  · unfold trimRightWS
    conv_lhs => rw [← List.reverse_reverse l]
    rw [← List.reverse_append]
    conv_lhs => rw [← List.takeWhile_append_dropWhile isWS l.reverse]
  · rw [List.all_reverse]
    exact all_takeWhileP isWS l.reverse

theorem trimRight_end_nonws {a : List Char} {c : Char} (hc : isWS c = false) :
    trimRightWS (a ++ [c]) = a ++ [c] := by
  unfold trimRightWS
  rw [List.reverse_append]
  show ((c :: a.reverse).dropWhile isWS).reverse = a ++ [c]
  rw [List.dropWhile_cons, hc]
  simp

theorem trimRight_append_ws {a tr : List Char} (h : tr.all isWS = true) :
    trimRightWS (a ++ tr) = trimRightWS a := by
  unfold trimRightWS
  rw [List.reverse_append, dropWhile_append_of_all (by rw [List.all_reverse]; exact h)]

theorem chUp_split {a b b1 b2 : List Char} (h : chUp a b) (hb : b = b1 ++ b2) :
    ∃ a1 a2, a = a1 ++ a2 ∧ chUp a1 b1 ∧ chUp a2 b2 := by
  subst hb
  refine ⟨a.take b1.length, a.drop b1.length, (List.take_append_drop _ _).symm, ?_, ?_⟩
  · have := chUp_take b1.length h
    rw [List.take_left] at this
    exact this
  · have := chUp_drop b1.length h
    rw [List.drop_left] at this
    exact this

theorem chUp_all_back {p : Char → Bool} (hp : ∀ c, p (upChar c) = p c)
    {a b : List Char} (h : chUp a b) (hb : b.all p = true) : a.all p = true := by
  induction h with
  | nil => rfl
  | cons hr hl ih =>
    rw [List.all_cons, Bool.and_eq_true] at hb ⊢
    refine ⟨?_, ih hb.2⟩
    rw [← upRel_p hp hr]
    exact hb.1

theorem chUp_all_fwd {p : Char → Bool} (hp : ∀ c, p (upChar c) = p c)
    {a b : List Char} (h : chUp a b) (ha : a.all p = true) : b.all p = true := by
  induction h with
  | nil => rfl
  | cons hr hl ih =>
    rw [List.all_cons, Bool.and_eq_true] at ha ⊢
    refine ⟨?_, ih ha.2⟩
    rw [upRel_p hp hr]
    exact ha.1

theorem upRel_fixed_back {k : Char} (hk : ∀ c, upChar c = k ↔ c = k) {a b : Char}
    (h : upRel a b) (hb : b = k) : a = k := by
  cases h with
  | inl e => rw [← e, hb]
  | inr e =>
    subst hb
    exact (hk a).mp e.symm

theorem upRel_fixed_fwd {k : Char} (hk : ∀ c, upChar c = k ↔ c = k) {a b : Char}
    (h : upRel a b) (ha : a = k) : b = k := by
  cases h with
  | inl e => rw [e, ha]
  | inr e =>
    rw [e, ha]
    exact (hk k).mpr rfl

/-- The shape of a line on which the section-header regex matches: optional
leading whitespace, `[`, the word token, the optional rest, `]`, optional
trailing whitespace. -/
def secForm (lead w r tr : List Char) : List Char :=
  lead ++ ('[' :: (w ++ (r ++ (']' :: tr))))

theorem lookOk_chUp {a b : List Char} (h : chUp a b) : lookOk a = lookOk b :=
  lookOk_congr (chUp_upEq h).symm

theorem secSplit_compute {lead w r tr : List Char} (hl : lead.all isWS = true)
    (ht : tr.all isWS = true) (hw : w ≠ []) (hww : w.all isWordChar = true)
    (hr : lookOk r = true) :
    sectionSplit? (secForm lead w r tr) = some (w, r) := by
  have h1 : (secForm lead w r tr).dropWhile isWS = '[' :: (w ++ (r ++ (']' :: tr))) := by
    unfold secForm
    rw [dropWhile_append_of_all hl, List.dropWhile_cons, if_neg (by decide)]
  have hassoc : w ++ (r ++ (']' :: tr)) = ((w ++ r) ++ [']']) ++ tr := by
    simp
  have h2 : trimRightWS (w ++ (r ++ (']' :: tr))) = (w ++ r) ++ [']'] := by
    rw [hassoc, trimRight_append_ws ht, trimRight_end_nonws (by decide)]
  have h3 : ((w ++ r) ++ [']']).reverse = ']' :: (w ++ r).reverse := by
    simp
  have h4 : (w ++ r).takeWhile isWordChar = w := by
    rw [takeWhile_append_of_all hww]
    have hrw : r.takeWhile isWordChar = [] := by
      cases r with
      | nil => rfl
      | cons c cs =>
        unfold lookOk at hr
        rw [List.takeWhile_cons, ws_not_word hr]
        simp
    rw [hrw, List.append_nil]
  unfold sectionSplit?
  rw [h1]
  dsimp only
  rw [if_pos rfl, h2, h3]
  dsimp only
  rw [if_pos rfl, List.reverse_reverse, h4, List.drop_left,
    if_neg (by rw [List.isEmpty_iff]; exact hw), if_pos hr]

theorem secSplit_some {l w r : List Char} (h : sectionSplit? l = some (w, r)) :
    ∃ tr, l = secForm (l.takeWhile isWS) w r tr ∧ tr.all isWS = true ∧
      w ≠ [] ∧ w.all isWordChar = true ∧ lookOk r = true := by
  unfold sectionSplit? at h
  cases hd : l.dropWhile isWS with
  | nil => rw [hd] at h; exact absurd h (by simp)
  | cons c tail =>
    rw [hd] at h
    dsimp only at h
    by_cases hc : c = '['
    · rw [if_pos hc] at h
      cases he : (trimRightWS tail).reverse with
      | nil => rw [he] at h; exact absurd h (by simp)
      | cons e innerRev =>
        rw [he] at h
        dsimp only at h
        by_cases hee : e = ']'
        · rw [if_pos hee] at h
          cases hemp : (innerRev.reverse.takeWhile isWordChar).isEmpty with
          | true => rw [if_pos hemp] at h; exact absurd h (by simp)
          | false =>
            rw [if_neg (by simp [hemp])] at h
            cases hlo : lookOk (innerRev.reverse.drop
                ((innerRev.reverse.takeWhile isWordChar).length)) with
            | false => rw [if_neg (by simp [hlo])] at h; exact absurd h (by simp)
            | true =>
              rw [if_pos hlo] at h
              have hpair := Option.some.inj h
              have hw1 : innerRev.reverse.takeWhile isWordChar = w :=
                congrArg Prod.fst hpair
              have hr1 : innerRev.reverse.drop
                  ((innerRev.reverse.takeWhile isWordChar).length) = r :=
                congrArg Prod.snd hpair
              obtain ⟨tr0, htail, htr0⟩ := trimRight_decomp tail
              refine ⟨tr0, ?_, htr0, ?_, ?_, ?_⟩
              · have hsplit : l = l.takeWhile isWS ++ (c :: tail) := by
                  conv_lhs => rw [← List.takeWhile_append_dropWhile isWS l]
                  rw [hd]
                have htw : trimRightWS tail = innerRev.reverse ++ [']'] := by
                  have h9 : trimRightWS tail = (e :: innerRev).reverse := by
                    rw [← he, List.reverse_reverse]
                  rw [h9, hee]
                  simp
                have hinner : innerRev.reverse = w ++ r := by
                  rw [← hw1, ← hr1, drop_len_takeWhile,
                    List.takeWhile_append_dropWhile]
                conv_lhs => rw [hsplit]
                rw [hc, htail, htw, hinner]
                unfold secForm
                simp
              · intro hwnil
                rw [hw1, hwnil] at hemp
                simp at hemp
              · rw [← hw1]
                exact all_takeWhileP _ _
              · rw [hr1] at hlo
                exact hlo
        · rw [if_neg hee] at h; exact absurd h (by simp)
    · rw [if_neg hc] at h; exact absurd h (by simp)

theorem upChar_eq_rbrack (c : Char) : (upChar c = ']') ↔ (c = ']') :=
  upChar_eq_fixed (by decide) (fun p hp => (pairsLU_vals p hp).2.2.2.2.1) c

theorem chUp_split_fwd {a b a1 a2 : List Char} (h : chUp a b) (ha : a = a1 ++ a2) :
    ∃ b1 b2, b = b1 ++ b2 ∧ chUp a1 b1 ∧ chUp a2 b2 := by
  subst ha
  refine ⟨b.take a1.length, b.drop a1.length, (List.take_append_drop _ _).symm, ?_, ?_⟩
  · have h2 := chUp_take a1.length h
    rw [List.take_left] at h2
    exact h2
  · have h2 := chUp_drop a1.length h
    rw [List.drop_left] at h2
    exact h2

theorem chUp_cons_left {c : Char} {cs b : List Char} (h : chUp (c :: cs) b) :
    ∃ d ds, b = d :: ds ∧ upRel c d ∧ chUp cs ds := by
  cases h with
  | cons hr ht => exact ⟨_, _, rfl, hr, ht⟩

theorem chUp_cons_right {d : Char} {a ds : List Char} (h : chUp a (d :: ds)) :
    ∃ c cs, a = c :: cs ∧ upRel c d ∧ chUp cs ds := by
  cases h with
  | cons hr ht => exact ⟨_, _, rfl, hr, ht⟩

theorem chUp_nil_left {b : List Char} (h : chUp [] b) : b = [] := by
  cases h
  rfl

/-- Forward structure transport: a `chUp`-image of a section-shaped line is
again section-shaped, componentwise related. -/
theorem secForm_chUp_fwd {lead w r tr y : List Char}
    (h : chUp (secForm lead w r tr) y) :
    ∃ lead2 w2 r2 tr2, y = secForm lead2 w2 r2 tr2 ∧ chUp lead lead2 ∧
      chUp w w2 ∧ chUp r r2 ∧ chUp tr tr2 := by
  unfold secForm at h
  obtain ⟨b1, b2, hy, h1, h2⟩ := chUp_split_fwd h rfl
  obtain ⟨d, ds, hb2, hbr, hrest⟩ := chUp_cons_left h2
  have hd : d = '[' := upRel_fixed_fwd upChar_eq_lbrack hbr rfl
  obtain ⟨w2, ds2, hds, hw2, h3⟩ := chUp_split_fwd hrest rfl
  obtain ⟨r2, ds3, hds2, hr2, h4⟩ := chUp_split_fwd h3 rfl
  obtain ⟨e, tr2, hds3, hbr2, htr2⟩ := chUp_cons_left h4
  have he : e = ']' := upRel_fixed_fwd upChar_eq_rbrack hbr2 rfl
  refine ⟨b1, w2, r2, tr2, ?_, h1, hw2, hr2, htr2⟩
  rw [hy, hb2, hds, hds2, hds3, hd, he]
  unfold secForm
  rfl

/-- Backward structure transport: a `chUp`-preimage of a section-shaped line
is again section-shaped, componentwise related. -/
theorem secForm_chUp_back {lead w r tr x : List Char}
    (h : chUp x (secForm lead w r tr)) :
    ∃ lead1 w1 r1 tr1, x = secForm lead1 w1 r1 tr1 ∧ chUp lead1 lead ∧
      chUp w1 w ∧ chUp r1 r ∧ chUp tr1 tr := by
  unfold secForm at h
  obtain ⟨a1, a2, hx, h1, h2⟩ := chUp_split h rfl
  obtain ⟨c, cs, ha2, hbr, hrest⟩ := chUp_cons_right h2
  have hc : c = '[' := upRel_fixed_back upChar_eq_lbrack hbr rfl
  obtain ⟨w1, cs2, hcs, hw1, h3⟩ := chUp_split hrest rfl
  obtain ⟨r1, cs3, hcs2, hr1, h4⟩ := chUp_split h3 rfl
  obtain ⟨e, tr1, hcs3, hbr2, htr1⟩ := chUp_cons_right h4
  have he : e = ']' := upRel_fixed_back upChar_eq_rbrack hbr2 rfl
  refine ⟨a1, w1, r1, tr1, ?_, h1, hw1, hr1, htr1⟩
  rw [hx, ha2, hcs, hcs2, hcs3, hc, he]
  unfold secForm
  rfl

/-- The section rule is idempotent (its output never re-matches with a
different capture). -/
theorem formatSection_idem (l : List Char) :
    formatSectionHeaders (formatSectionHeaders l) = formatSectionHeaders l := by
  cases hs : sectionSplit? l with
  | none =>
    have h1 : formatSectionHeaders l = l := by
      unfold formatSectionHeaders
      rw [hs]
    rw [h1, h1]
  | some p =>
    obtain ⟨w, r⟩ := p
    obtain ⟨tr, hform, htr, hw, hww, hr⟩ := secSplit_some hs
    have h1 : formatSectionHeaders l = '[' :: (w.map upChar ++ r ++ [']']) := by
      unfold formatSectionHeaders
      rw [hs]
    have hshape : ('[' :: (w.map upChar ++ r ++ [']'])) =
        secForm [] (w.map upChar) r [] := by
      unfold secForm
      simp
    have hwU : w.map upChar ≠ [] := by
      intro hnil
      have h2 := congrArg List.length hnil
      rw [List.length_map] at h2
      exact hw (List.length_eq_zero.mp h2)
    have hwwU : (w.map upChar).all isWordChar = true :=
      chUp_all_fwd isWordChar_upChar (chUp_mapUp w) hww
    have hsy : sectionSplit? ('[' :: (w.map upChar ++ r ++ [']'])) =
        some (w.map upChar, r) := by
      rw [hshape]
      exact secSplit_compute rfl rfl hwU hwwU hr
    rw [h1]
    unfold formatSectionHeaders
    rw [hsy]
    dsimp only
    rw [mapUp_idem]

/-- A `wsUp`-image of a line the section rule does not match is again
unmatched. -/
theorem secSplit_none_wsUp {x y : List Char} (hxy : wsUp x y)
    (hx : sectionSplit? x = none) : sectionSplit? y = none := by
  cases hsy : sectionSplit? y with
  | none => rfl
  | some p =>
    obtain ⟨w, r⟩ := p
    obtain ⟨tr, hform, htr, hw, hww, hr⟩ := secSplit_some hsy
    obtain ⟨sp, x0, hx0, hsp, hch⟩ := hxy
    rw [hform] at hch
    obtain ⟨lead1, w1, r1, tr1, hxf, hcl, hcw, hcr, hct⟩ := secForm_chUp_back hch
    have hxs : x = secForm (sp ++ lead1) w1 r1 tr1 := by
      rw [hx0, hxf]
      unfold secForm
      simp
    have hlead : (sp ++ lead1).all isWS = true := by
      rw [List.all_append]
      refine Bool.and_eq_true _ _ |>.mpr ⟨?_, ?_⟩
      · exact List.all_eq_true.mpr fun c hc =>
          isWS_of_isSpTab (List.all_eq_true.mp hsp c hc)
      · exact chUp_all_back isWS_upChar hcl (all_takeWhileP isWS y)
    have htr1 : tr1.all isWS = true := chUp_all_back isWS_upChar hct htr
    have hw1 : w1 ≠ [] := by
      intro hnil
      have h2 := chUp_length hcw
      rw [hnil] at h2
      exact hw (List.length_eq_zero.mp h2.symm)
    have hww1 : w1.all isWordChar = true := chUp_all_back isWordChar_upChar hcw hww
    have hr1 : lookOk r1 = true := by
      rw [lookOk_chUp hcr]
      exact hr
    have h9 : sectionSplit? x = some (w1, r1) := by
      rw [hxs]
      exact secSplit_compute hlead htr1 hw1 hww1 hr1
    rw [hx] at h9
    cases h9

/-- Transport of section-rule fixedness along `wsUp`: if the section rule
fixes `x` and `y` differs from `x` only by deleted leading space/tab and
uppercasing, the rule also fixes `y`. -/
theorem formatSection_fix_wsUp {x y : List Char} (hxy : wsUp x y)
    (hfix : formatSectionHeaders x = x) : formatSectionHeaders y = y := by
  cases hsx : sectionSplit? x with
  | none =>
    unfold formatSectionHeaders
    rw [secSplit_none_wsUp hxy hsx]
  | some p =>
    obtain ⟨w, r⟩ := p
    have hout : formatSectionHeaders x = '[' :: (w.map upChar ++ r ++ [']']) := by
      unfold formatSectionHeaders
      rw [hsx]
    have hxeq : x = '[' :: (w.map upChar ++ r ++ [']']) := by
      rw [← hout, hfix]
    obtain ⟨tr, hform, htr, hw, hww, hr⟩ := secSplit_some hsx
    obtain ⟨sp, x0, hx0, hsp, hch⟩ := hxy
    have hspnil : sp = [] := by
      cases sp with
      | nil => rfl
      | cons a as =>
        have h2 : a :: (as ++ x0) = '[' :: (w.map upChar ++ r ++ [']']) := by
          rw [← hxeq, hx0]
          rfl
        injection h2 with ha htl
        rw [List.all_cons, Bool.and_eq_true] at hsp
        rw [ha] at hsp
        exact absurd hsp.1 (by decide)
    rw [hspnil, List.nil_append] at hx0
    rw [← hx0] at hch
    have hshape : x = secForm [] (w.map upChar) r [] := by
      rw [hxeq]
      unfold secForm
      simp
    rw [hshape] at hch
    obtain ⟨lead2, w2, r2, tr2, hyf, hcl, hcw, hcr, hct⟩ := secForm_chUp_fwd hch
    have hl2 : lead2 = [] := chUp_nil_left hcl
    have ht2 : tr2 = [] := chUp_nil_left hct
    have hw2 : w2 = w.map upChar := chUp_fix_upper hcw (mapUp_idem w)
    have hwU : w.map upChar ≠ [] := by
      intro hnil
      have h2 := congrArg List.length hnil
      rw [List.length_map] at h2
      exact hw (List.length_eq_zero.mp h2)
    have hwwU : (w.map upChar).all isWordChar = true :=
      chUp_all_fwd isWordChar_upChar (chUp_mapUp w) hww
    have hr2 : lookOk r2 = true := by
      rw [← lookOk_chUp hcr]
      exact hr
    have hsy : sectionSplit? y = some (w.map upChar, r2) := by
      rw [hyf, hl2, ht2, hw2]
      exact secSplit_compute rfl rfl hwU hwwU hr2
    unfold formatSectionHeaders
    rw [hsy]
    dsimp only
    rw [mapUp_idem, hyf, hl2, ht2, hw2]
    unfold secForm
    simp

/-- Idempotence of the gated six-rule cascade: every rule fixes the final
output, established at the rule's own stage and transported along the
later stages' `wsUp` steps. -/
theorem formatLine_idem (l : List Char) :
    formatLine (formatLine l) = formatLine l := by
  by_cases hc : isCommentLine l = true
  · have h1 : formatLine l = l := by
      unfold formatLine
      rw [if_pos hc]
    rw [h1, h1]
  · have h1 : formatLine l = formatCommandCalls (formatControlKeywords
        (formatAssignmentKeywords (formatScopedAssignments (formatTriggers
        (formatSectionHeaders l))))) := by
      unfold formatLine
      rw [if_neg hc]
    set a1 := formatSectionHeaders l with ha1
    set a2 := formatTriggers a1 with ha2
    set a3 := formatScopedAssignments a2 with ha3
    set a4 := formatAssignmentKeywords a3 with ha4
    set a5 := formatControlKeywords a4 with ha5
    set y := formatCommandCalls a5 with hy
    have w5 : wsUp a5 y := wsUp_of_chUp (formatCommandCalls_chUp a5)
    have w4 : wsUp a4 y := chUp_trans_wsUp (formatControl_chUp a4) w5
    have w3 : wsUp a3 y := wsUp_trans (formatAssign_wsUp a3) w4
    have w2 : wsUp a2 y := chUp_trans_wsUp (formatScoped_chUp a2) w3
    have w1 : wsUp a1 y := chUp_trans_wsUp (formatTriggers_chUp a1) w2
    have f1 : formatSectionHeaders y = y :=
      formatSection_fix_wsUp w1 (formatSection_idem l)
    have f2 : formatTriggers y = y :=
      formatTriggers_fix_wsUp w2 (formatTriggers_idem a1)
    have f3 : formatScopedAssignments y = y :=
      formatScoped_fix_wsUp w3 (formatScoped_idem a2)
    have f4 : formatAssignmentKeywords y = y :=
      formatAssign_fix_wsUp w4 (formatAssign_idem a3)
    have f5 : formatControlKeywords y = y :=
      formatControl_fix_wsUp w5 (formatControl_idem a4)
    have f6 : formatCommandCalls y = y := formatCommandCalls_idem a5
    rw [h1]
    by_cases hcy : isCommentLine y = true
    · unfold formatLine
      rw [if_pos hcy]
    · unfold formatLine
      rw [if_neg hcy, f1, f2, f3, f4, f5, f6]

theorem dropWhile_dropWhile (p : Char → Bool) (x : List Char) :
    (x.dropWhile p).dropWhile p = x.dropWhile p := by
  cases hd : x.dropWhile p with
  | nil => rfl
  | cons c cs =>
    rw [List.dropWhile_cons, if_neg]
    rw [dropWhile_head_false hd]
    simp

theorem trimRight_idem (l : List Char) :
    trimRightWS (trimRightWS l) = trimRightWS l := by
  unfold trimRightWS
  rw [List.reverse_reverse, dropWhile_dropWhile]

theorem trimRight_length_le (a : List Char) : (trimRightWS a).length ≤ a.length := by
  unfold trimRightWS
  rw [List.length_reverse]
  have hsub : List.Sublist (a.reverse.dropWhile isWS) a.reverse :=
    List.dropWhile_sublist _
  have h1 := hsub.length_le
  rw [List.length_reverse] at h1
  exact h1

/-- A `wsUp`-image of a line with no trailing whitespace again has none. -/
theorem trimRight_fix_wsUp {x y : List Char} (hxy : wsUp x y)
    (hfix : trimRightWS x = x) : trimRightWS y = y := by
  obtain ⟨sp, x0, hx, hsp, hch⟩ := hxy
  rcases List.eq_nil_or_concat x0 with h0 | ⟨L, b, hLb⟩
  · rw [h0] at hch
    rw [chUp_nil_left hch]
    rfl
  · rw [List.concat_eq_append] at hLb
    have hb : isWS b = false := by
      cases hwb : isWS b with
      | false => rfl
      | true =>
        have h2 : trimRightWS x = trimRightWS (sp ++ L) := by
          rw [hx, hLb, ← List.append_assoc]
          exact trimRight_append_ws (by simp [hwb])
        rw [hfix] at h2
        have h3 := congrArg List.length h2
        have h4 := trimRight_length_le (sp ++ L)
        rw [hx, hLb] at h3
        simp at h3 h4
        omega
    rw [hLb] at hch
    obtain ⟨y1, y2, hy, hcL, hcb⟩ := chUp_split_fwd hch rfl
    obtain ⟨d, ds, hy2, hrb, hds⟩ := chUp_cons_left hcb
    have hds0 : ds = [] := chUp_nil_left hds
    have hd : isWS d = false := by
      cases hrb with
      | inl e => rw [e]; exact hb
      | inr e => rw [e, isWS_upChar]; exact hb
    rw [hy, hy2, hds0]
    exact trimRight_end_nonws hd

theorem formatSection_trimFix {l : List Char} (hfix : trimRightWS l = l) :
    trimRightWS (formatSectionHeaders l) = formatSectionHeaders l := by
  cases hs : sectionSplit? l with
  | none =>
    unfold formatSectionHeaders
    rw [hs]
    exact hfix
  | some p =>
    obtain ⟨w, r⟩ := p
    unfold formatSectionHeaders
    rw [hs]
    dsimp only
    have h2 : ('[' :: (w.map upChar ++ r ++ [']'])) =
        ('[' :: (w.map upChar ++ r)) ++ [']'] := by
      simp
    rw [h2]
    exact trimRight_end_nonws (by decide)

/-- `formatLine` maps lines without trailing whitespace to lines without
trailing whitespace. -/
theorem formatLine_trimFix {l : List Char} (hfix : trimRightWS l = l) :
    trimRightWS (formatLine l) = formatLine l := by
  by_cases hc : isCommentLine l = true
  · unfold formatLine
    rw [if_pos hc]
    exact hfix
  · have h1 : formatLine l = formatCommandCalls (formatControlKeywords
        (formatAssignmentKeywords (formatScopedAssignments (formatTriggers
        (formatSectionHeaders l))))) := by
      unfold formatLine
      rw [if_neg hc]
    set a1 := formatSectionHeaders l with ha1
    set a2 := formatTriggers a1 with ha2
    set a3 := formatScopedAssignments a2 with ha3
    set a4 := formatAssignmentKeywords a3 with ha4
    set a5 := formatControlKeywords a4 with ha5
    set y := formatCommandCalls a5 with hy
    have w5 : wsUp a5 y := wsUp_of_chUp (formatCommandCalls_chUp a5)
    have w4 : wsUp a4 y := chUp_trans_wsUp (formatControl_chUp a4) w5
    have w3 : wsUp a3 y := wsUp_trans (formatAssign_wsUp a3) w4
    have w2 : wsUp a2 y := chUp_trans_wsUp (formatScoped_chUp a2) w3
    have w1 : wsUp a1 y := chUp_trans_wsUp (formatTriggers_chUp a1) w2
    rw [h1]
    exact trimRight_fix_wsUp w1 (formatSection_trimFix hfix)

theorem formatPipeline_idem (l : List Char) :
    formatPipeline (formatPipeline l) = formatPipeline l := by
  unfold formatPipeline
  rw [formatLine_trimFix (trimRight_idem l), formatLine_idem]

theorem trimWS_trimRightWS (l : List Char) : trimWS (trimRightWS l) = trimWS l := by
  obtain ⟨tr, hdec, htr⟩ := trimRight_decomp l
  unfold trimWS
  cases hd : (trimRightWS l).dropWhile isWS with
  | nil =>
    have hall : (trimRightWS l).all isWS = true :=
      List.all_eq_true.mpr fun x hx => List.dropWhile_eq_nil_iff.mp hd x hx
    have h2 : l.dropWhile isWS = [] := by
      rw [hdec, dropWhile_append_of_all hall, List.dropWhile_eq_nil_iff]
      exact fun x hx => List.all_eq_true.mp htr x hx
    rw [h2]
  | cons c cs =>
    have h2 : l.dropWhile isWS = (c :: cs) ++ tr := by
      conv_lhs => rw [hdec]
      rw [List.dropWhile_append, hd]
      simp
    rw [h2, trimRight_append_ws htr]

theorem isCommentLine_trimRight (l : List Char) :
    isCommentLine (trimRightWS l) = isCommentLine l := by
  unfold isCommentLine
  rw [trimWS_trimRightWS]

theorem chUp_trimRight {x y : List Char} (h : chUp x y) :
    chUp (trimRightWS x) (trimRightWS y) := by
  unfold trimRightWS
  exact chUp_reverse ((chUp_spans isWS_upChar (chUp_reverse h)).2.2)

theorem chUp_trimWS {x y : List Char} (h : chUp x y) :
    chUp (trimWS x) (trimWS y) := by
  unfold trimWS
  exact chUp_trimRight ((chUp_spans isWS_upChar h).2.2)

theorem beq_slash_upRel {a b : Char} (h : upRel a b) :
    (('/' : Char) == a) = (('/' : Char) == b) := by
  have h1 : (a == '/') = (b == '/') :=
    beq_fixed_of_upEq upChar_eq_slash (upRel_upEq h).symm
  calc (('/' : Char) == a) = (a == '/') := Bool.beq_comm
  _ = (b == '/') := h1
  _ = (('/' : Char) == b) := Bool.beq_comm

theorem isPre_slashes_chUp {a b : List Char} (h : chUp a b) :
    List.isPrefixOf slashes a = List.isPrefixOf slashes b := by
  cases h with
  | cons hr1 ht1 =>
    rename_i c1 d1 cs1 ds1
    cases ht1 with
    | cons hr2 ht2 =>
      rename_i c2 d2 cs2 ds2
      show ((('/' : Char) == c1) && ((('/' : Char) == c2) &&
          List.isPrefixOf [] cs2)) =
        ((('/' : Char) == d1) && ((('/' : Char) == d2) &&
          List.isPrefixOf [] ds2))
      rw [beq_slash_upRel hr1, beq_slash_upRel hr2]
      simp [List.isPrefixOf]
    | nil =>
      show ((('/' : Char) == c1) && List.isPrefixOf ['/'] []) =
        ((('/' : Char) == d1) && List.isPrefixOf ['/'] [])
      rw [beq_slash_upRel hr1]
  | nil => rfl

theorem isCommentLine_chUp {x y : List Char} (h : chUp x y) :
    isCommentLine x = isCommentLine y := by
  unfold isCommentLine
  exact isPre_slashes_chUp (chUp_trimWS h)

/-- `isCommentLine` ignores leading space/tab runs. -/
theorem isCommentLine_spTab {sp x0 : List Char} (hsp : sp.all isSpTab = true) :
    isCommentLine (sp ++ x0) = isCommentLine x0 := by
  unfold isCommentLine trimWS
  rw [dropWhile_append_of_all
    (List.all_eq_true.mpr fun c hc =>
      isWS_of_isSpTab (List.all_eq_true.mp hsp c hc))]

theorem isCommentLine_wsUp {x y : List Char} (h : wsUp x y) :
    isCommentLine x = isCommentLine y := by
  obtain ⟨sp, x0, hx, hsp, hch⟩ := h
  rw [hx, isCommentLine_spTab hsp]
  exact isCommentLine_chUp hch

theorem trimRight_cons_nonws {c : Char} (rest : List Char) (hc : isWS c = false) :
    trimRightWS (c :: rest) = c :: trimRightWS rest := by
  unfold trimRightWS
  rw [List.reverse_cons, List.dropWhile_append]
  cases he : (rest.reverse.dropWhile isWS).isEmpty with
  | true =>
    rw [List.isEmpty_iff] at he
    rw [he]
    simp [List.dropWhile_cons, hc]
  | false =>
    simp

theorem isCommentLine_cons_nonws {c : Char} {rest : List Char}
    (hcw : isWS c = false) (hcs : c ≠ '/') :
    isCommentLine (c :: rest) = false := by
  unfold isCommentLine trimWS
  rw [List.dropWhile_cons, hcw]
  simp only [Bool.false_eq_true, if_false]
  rw [trimRight_cons_nonws rest hcw]
  show (('/' : Char) == c && List.isPrefixOf ['/'] (trimRightWS rest)) = false
  have h2 : (('/' : Char) == c) = false :=
    beq_eq_false_iff_ne.mpr (fun h => hcs h.symm)
  rw [h2]
  rfl

/-- The section rule never turns a non-comment line into a comment line. -/
theorem formatSection_nonComment {l : List Char} (hc : isCommentLine l = false) :
    isCommentLine (formatSectionHeaders l) = false := by
  cases hs : sectionSplit? l with
  | none =>
    unfold formatSectionHeaders
    rw [hs]
    exact hc
  | some p =>
    obtain ⟨w, r⟩ := p
    unfold formatSectionHeaders
    rw [hs]
    exact isCommentLine_cons_nonws (by decide) (by decide)

/-- C9 core: the part_001 variant formatter computes the same lines as the
canonical formatter. -/
theorem vFormatLine_eq_formatLine (l : List Char) : vFormatLine l = formatLine l := by
  by_cases hc : isCommentLine l = true
  · unfold vFormatLine formatLine
    rw [if_pos hc, if_pos hc]
  · have hc0 : isCommentLine l = false := by
      cases h : isCommentLine l
      · rfl
      · exact absurd h hc
    have n1 : isCommentLine (formatSectionHeaders l) = false :=
      formatSection_nonComment hc0
    have n2 : isCommentLine (formatTriggers (formatSectionHeaders l)) = false := by
      rw [← isCommentLine_chUp (formatTriggers_chUp _)]
      exact n1
    have n3 : isCommentLine (formatScopedAssignments (formatTriggers
        (formatSectionHeaders l))) = false := by
      rw [← isCommentLine_chUp (formatScoped_chUp _)]
      exact n2
    have n4 : isCommentLine (formatAssignmentKeywords (formatScopedAssignments
        (formatTriggers (formatSectionHeaders l)))) = false := by
      rw [← isCommentLine_wsUp (formatAssign_wsUp _)]
      exact n3
    have n5 : isCommentLine (formatControlKeywords (formatAssignmentKeywords
        (formatScopedAssignments (formatTriggers (formatSectionHeaders l))))) =
        false := by
      rw [← isCommentLine_chUp (formatControl_chUp _)]
      exact n4
    have m1 : ¬(isCommentLine (formatSectionHeaders l) = true) := by
      simp [n1]
    have m2 : ¬(isCommentLine (formatTriggers (formatSectionHeaders l)) = true) := by
      simp [n2]
    have m4 : ¬(isCommentLine (formatAssignmentKeywords (formatScopedAssignments
        (formatTriggers (formatSectionHeaders l)))) = true) := by
      simp [n4]
    have m5 : ¬(isCommentLine (formatControlKeywords (formatAssignmentKeywords
        (formatScopedAssignments (formatTriggers (formatSectionHeaders l))))) =
        true) := by
      simp [n5]
    unfold vFormatLine formatLine vFormatFunctions vFormatControls vFormatVars
      vFormatScopedVars vFormatTriggers vFormatSections
    rw [if_neg hc, if_neg hc, if_neg m1, if_neg m2, if_neg m4, if_neg m5,
      if_neg hc]

theorem ciPre_self_append : ∀ (tok rest : List Char), ciPre tok (tok ++ rest) = true
  | [], _ => rfl
  | c :: cs, rest => by
    show ((upChar c == upChar c) && ciPre cs (cs ++ rest)) = true
    rw [beq_self_eq_true, ciPre_self_append cs rest]
    rfl

/-- A whole-line trigger `on=@WORD` is uppercased in full. -/
theorem formatTriggers_full {w : List Char} (hne : w ≠ [])
    (hw : w.all isWordChar = true) :
    formatTriggers (onAt ++ w) = (onAt ++ w).map upChar := by
  have hd4 : (onAt ++ w).drop 4 = w := List.drop_left onAt w
  have hciA : ciPre onAt (onAt ++ w) = true := ciPre_self_append onAt w
  have htk : w.takeWhile isWordChar = w :=
    List.takeWhile_eq_self_iff.mpr (List.all_eq_true.mp hw)
  have hm : triggerMatch (onAt ++ w) = some (4 + w.length, false) := by
    unfold triggerMatch
    rw [if_pos hciA, hd4, htk]
    rw [if_neg (by simp [List.isEmpty_iff, hne])]
    rw [List.drop_length]
    simp [trigBnd, lookOk]
  unfold formatTriggers
  rw [scanTrig_eq_scanGen]
  have hlen : (onAt ++ w).length = (3 + w.length) + 1 := by
    simp [onAt]
    omega
  rw [hlen]
  have hm2 : triggerMatch ('o' :: ('n' :: ('=' :: ('@' :: w)))) =
      some (4 + w.length, false) := hm
  rw [show onAt ++ w = 'o' :: ('n' :: ('=' :: ('@' :: w))) from rfl]
  rw [scanGen_cons_some hm2]
  have htake : ('o' :: ('n' :: ('=' :: ('@' :: w)))).take (4 + w.length) =
      'o' :: ('n' :: ('=' :: ('@' :: w))) :=
    List.take_of_length_le (by simp; omega)
  have hdrop : ('o' :: ('n' :: ('=' :: ('@' :: w)))).drop (4 + w.length) = [] :=
    List.drop_eq_nil_of_le (by simp; omega)
  rw [htake, hdrop, scanGen_nil, List.append_nil]

theorem takeWhile_nil_chUp {p : Char → Bool} (hp : ∀ c, p (upChar c) = p c)
    {x y : List Char} (h : chUp x y) (hx : x.takeWhile p = []) :
    y.takeWhile p = [] := by
  cases h with
  | nil => rfl
  | cons hr ht =>
    rename_i c d cs ds
    rw [List.takeWhile_cons] at hx
    cases hc : p c with
    | true =>
      rw [hc] at hx
      simp at hx
    | false =>
      rw [List.takeWhile_cons, upRel_p hp hr, hc]
      simp

theorem takeWhile_spTab_nil {x : List Char} (h : x.takeWhile isWS = []) :
    x.takeWhile isSpTab = [] := by
  cases x with
  | nil => rfl
  | cons c cs =>
    have hcf : isWS c = false := by
      cases hc : isWS c with
      | false => rfl
      | true =>
        rw [List.takeWhile_cons, hc] at h
        simp at h
    have hs : isSpTab c = false := by
      cases hs2 : isSpTab c with
      | false => rfl
      | true => rw [isWS_of_isSpTab hs2] at hcf; cases hcf
    rw [List.takeWhile_cons, hs]
    simp

theorem wsUp_chUp_of_noLead {x y : List Char} (h : wsUp x y)
    (hx : x.takeWhile isSpTab = []) : chUp x y := by
  obtain ⟨sp, x0, hxe, hsp, hch⟩ := h
  cases sp with
  | nil =>
    rw [hxe, List.nil_append]
    exact hch
  | cons a as =>
    rw [hxe, List.cons_append, List.takeWhile_cons] at hx
    rw [List.all_cons, Bool.and_eq_true] at hsp
    rw [hsp.1] at hx
    simp at hx

/-- On a line with no surrounding whitespace, the section rule is a pure
per-character uppercasing. -/
theorem formatSection_chUp_noWS {l : List Char} (h2 : l.takeWhile isWS = [])
    (h3 : trimRightWS l = l) : chUp l (formatSectionHeaders l) := by
  cases hs : sectionSplit? l with
  | none =>
    unfold formatSectionHeaders
    rw [hs]
    exact chUp_refl l
  | some p =>
    obtain ⟨w, r⟩ := p
    obtain ⟨tr, hform, htr, hw, hww, hr⟩ := secSplit_some hs
    rw [h2] at hform
    have hA : l = ('[' :: (w ++ (r ++ [']']))) ++ tr := by
      rw [hform]
      unfold secForm
      simp
    have htr0 : tr = [] := by
      have h4 : trimRightWS l = trimRightWS ('[' :: (w ++ (r ++ [']']))) := by
        rw [hA]
        exact trimRight_append_ws htr
      rw [h3] at h4
      have h5 := congrArg List.length h4
      have h6 := trimRight_length_le ('[' :: (w ++ (r ++ [']'])))
      rw [hA] at h5
      simp at h5 h6
      rw [← List.length_eq_zero]
      omega
    have hform2 : l = '[' :: (w ++ (r ++ [']'])) := by
      rw [hA, htr0, List.append_nil]
    unfold formatSectionHeaders
    rw [hs]
    dsimp only
    rw [hform2]
    refine List.Forall₂.cons (Or.inl rfl) ?_
    have hparts : chUp (w ++ (r ++ [']'])) (w.map upChar ++ (r ++ [']'])) :=
      chUp_append (chUp_mapUp w) (chUp_refl (r ++ [']']))
    have hassoc : w.map upChar ++ r ++ [']'] = w.map upChar ++ (r ++ [']']) := by
      simp
    rw [hassoc]
    exact hparts

/-- On a non-comment line with no surrounding whitespace, the whole cascade
only uppercases characters in place (no insertion, deletion or
reordering). -/
theorem formatLine_chUp_of_plain {l : List Char} (h1 : isCommentLine l = false)
    (h2 : l.takeWhile isWS = []) (h3 : trimRightWS l = l) :
    chUp l (formatLine l) := by
  unfold formatLine
  rw [if_neg (by simp [h1])]
  have c1 : chUp l (formatSectionHeaders l) := formatSection_chUp_noWS h2 h3
  have c2 : chUp (formatSectionHeaders l) (formatTriggers (formatSectionHeaders l)) :=
    formatTriggers_chUp (formatSectionHeaders l)
  have c3 : chUp (formatTriggers (formatSectionHeaders l))
      (formatScopedAssignments (formatTriggers (formatSectionHeaders l))) :=
    formatScoped_chUp (formatTriggers (formatSectionHeaders l))
  have n0 : l.takeWhile isSpTab = [] := takeWhile_spTab_nil h2
  have nl1 : (formatSectionHeaders l).takeWhile isSpTab = [] :=
    takeWhile_nil_chUp isSpTab_upChar c1 n0
  have nl2 := takeWhile_nil_chUp isSpTab_upChar c2 nl1
  have nl3 := takeWhile_nil_chUp isSpTab_upChar c3 nl2
  have c4 : chUp (formatScopedAssignments (formatTriggers (formatSectionHeaders l)))
      (formatAssignmentKeywords (formatScopedAssignments (formatTriggers
        (formatSectionHeaders l)))) :=
    wsUp_chUp_of_noLead (formatAssign_wsUp _) nl3
  have c5 := formatControl_chUp (formatAssignmentKeywords
    (formatScopedAssignments (formatTriggers (formatSectionHeaders l))))
  have c6 := formatCommandCalls_chUp (formatControlKeywords
    (formatAssignmentKeywords (formatScopedAssignments (formatTriggers
      (formatSectionHeaders l)))))
  exact chUp_trans c1 (chUp_trans c2 (chUp_trans c3 (chUp_trans c4
    (chUp_trans c5 c6))))

/-- The assignment-keyword rule on a `defname=` line: the keyword and `=`
are uppercased, the value is kept, and the leading space/tab run is
deleted (the replacement does not re-emit it). -/
theorem formatAssign_strips {sp rest : List Char} (hsp : sp.all isSpTab = true) :
    formatAssignmentKeywords
        (sp ++ (['d', 'e', 'f', 'n', 'a', 'm', 'e', '='] ++ rest)) =
      ['D', 'E', 'F', 'N', 'A', 'M', 'E', '='] ++ rest := by
  have hdp : (sp ++ (['d', 'e', 'f', 'n', 'a', 'm', 'e', '='] ++ rest)).dropWhile
      isSpTab = ['d', 'e', 'f', 'n', 'a', 'm', 'e', '='] ++ rest := by
    rw [dropWhile_append_of_all hsp]
    show List.dropWhile isSpTab
      ('d' :: (['e', 'f', 'n', 'a', 'm', 'e', '='] ++ rest)) = _
    rw [List.dropWhile_cons, if_neg (by decide)]
    exact rfl
  have hcond : acond isSpTab postTrue ['d', 'e', 'f', 'n', 'a', 'm', 'e', '=']
      (sp ++ (['d', 'e', 'f', 'n', 'a', 'm', 'e', '='] ++ rest)) = true := by
    unfold acond
    rw [hdp, ciPre_self_append]
    rfl
  have htok : VarsKeywords.map (fun kw => kw ++ ['=']) =
      [['d', 'e', 'f', 'n', 'a', 'm', 'e', '=']] := by decide
  unfold formatAssignmentKeywords anchorFold
  rw [htok]
  show anchorStep isSpTab postTrue false ['d', 'e', 'f', 'n', 'a', 'm', 'e', '=']
    (sp ++ (['d', 'e', 'f', 'n', 'a', 'm', 'e', '='] ++ rest)) = _
  rw [anchorStep_pos hcond, hdp]
  show [] ++ ((['d', 'e', 'f', 'n', 'a', 'm', 'e', '='] ++ rest).take 8).map upChar
    ++ (['d', 'e', 'f', 'n', 'a', 'm', 'e', '='] ++ rest).drop 8 = _
  rw [show (8 : Nat) = (['d', 'e', 'f', 'n', 'a', 'm', 'e', '='] : List Char).length
      from rfl,
    List.take_left, List.drop_left]
  rfl

/-- The section rule on a full match: the word token is uppercased, the
rest region is kept, and both whitespace runs around the bracketed body
are deleted. -/
theorem formatSection_strips {sp1 w r sp2 : List Char} (h1 : sp1.all isWS = true)
    (h2 : sp2.all isWS = true) (hw : w ≠ []) (hww : w.all isWordChar = true)
    (hr : lookOk r = true) :
    formatSectionHeaders (secForm sp1 w r sp2) =
      '[' :: (w.map upChar ++ r ++ [']']) := by
  unfold formatSectionHeaders
  rw [secSplit_compute h1 h2 hw hww hr]

theorem go_map_some (doc : List (List Char)) : ∀ i : Nat,
    formatDocumentEdits?.go i (doc.map some) =
      Except.ok ((doc.enumFrom i).map (fun p => lineEdit p.1 p.2)) := by
  induction doc with
  | nil => intro i; rfl
  | cons t rest ih =>
    intro i
    show formatDocumentEdits?.go i (some t :: rest.map some) = _
    unfold formatDocumentEdits?.go
    rw [ih (i + 1)]
    rfl

/-- C1: the line-formatting pipeline (trailing-whitespace trim, comment
gate, then the six rewrite rules in their fixed order) is idempotent:
`formatLine (formatLine l) = formatLine l` for every line, and likewise for
the full per-line pipeline including the uniform pre-trim. -/
theorem C1_formatLine_idempotent :
    (∀ l : List Char, formatLine (formatLine l) = formatLine l) ∧
      (∀ l : List Char, formatPipeline (formatPipeline l) = formatPipeline l) :=
  ⟨formatLine_idem, formatPipeline_idem⟩

/-- C2: comment invariance: a line whose trimmed text starts with `//`
passes through the pipeline with only its trailing whitespace removed. -/
theorem C2_comment_invariance (l : List Char) (h : isCommentLine l = true) :
    formatPipeline l = trimRightWS l := by
  unfold formatPipeline formatLine
  rw [if_pos (by rw [isCommentLine_trimRight]; exact h)]

theorem C2_comment_invariance_witness :
    isCommentLine (("  // note   ").toList) = true ∧
      formatPipeline (("  // note   ").toList) =
        trimRightWS (("  // note   ").toList) :=
  ⟨by decide, C2_comment_invariance (("  // note   ").toList) (by decide)⟩

/-- C3 (amended): on a non-comment line with no leading and no trailing
whitespace, `formatLine` only uppercases characters in place (each output
character is the input character or its uppercase form) and the character
count is unchanged.  The original claim is refuted by
`C3_counterexample`: on a line with leading whitespace the assignment rule
deletes characters, so the transform is not case-only. -/
theorem C3_case_only_transform (l : List Char) (h1 : isCommentLine l = false)
    (h2 : l.takeWhile isWS = []) (h3 : trimRightWS l = l) :
    chUp l (formatLine l) ∧ (formatLine l).length = l.length := by
  have hc := formatLine_chUp_of_plain h1 h2 h3
  exact ⟨hc, (chUp_length hc).symm⟩

theorem C3_counterexample :
    isCommentLine (("  defname=SOMETHING").toList) = false ∧
      (formatLine (("  defname=SOMETHING").toList)).length ≠
        (trimRightWS (("  defname=SOMETHING").toList)).length := by
  decide

theorem C3_case_only_transform_witness :
    chUp (("tag.x=1").toList) (formatLine (("tag.x=1").toList)) ∧
      (formatLine (("tag.x=1").toList)).length = (("tag.x=1").toList).length :=
  C3_case_only_transform (("tag.x=1").toList) (by decide) (by decide) (by decide)

/-- C4 (amended): the assignment-keyword rule uppercases the keyword and
`=` and keeps the value, but the leading space/tab run is deleted, not
preserved: `  defname=SOMETHING` formats to `DEFNAME=SOMETHING`.  The
original claim (leading whitespace preserved) is refuted by
`C4_counterexample`. -/
theorem C4_assignment_keyword :
    (∀ sp rest : List Char, sp.all isSpTab = true →
        formatAssignmentKeywords
            (sp ++ (['d', 'e', 'f', 'n', 'a', 'm', 'e', '='] ++ rest)) =
          ['D', 'E', 'F', 'N', 'A', 'M', 'E', '='] ++ rest) ∧
      formatLine (("  defname=SOMETHING").toList) = ("DEFNAME=SOMETHING").toList :=
  ⟨fun _ _ hsp => formatAssign_strips hsp, by decide⟩

theorem C4_counterexample :
    formatLine (("  defname=SOMETHING").toList) ≠ ("  DEFNAME=SOMETHING").toList := by
  decide

theorem C4_assignment_keyword_witness :
    formatAssignmentKeywords ((" \t").toList ++
        (['d', 'e', 'f', 'n', 'a', 'm', 'e', '='] ++ ("XY").toList)) =
      ['D', 'E', 'F', 'N', 'A', 'M', 'E', '='] ++ ("XY").toList :=
  C4_assignment_keyword.1 ((" \t").toList) (("XY").toList) (by decide)

/-- C5 (amended): on a section-header line the rule uppercases only the
word token and keeps the rest region, but deletes the surrounding
whitespace instead of leaving it unchanged; `[itemdef 0x1]` does format to
`[ITEMDEF 0x1]`.  The surrounding-whitespace part of the original claim is
refuted by `C5_counterexample`. -/
theorem C5_section_headers :
    (∀ sp1 w r sp2 : List Char, sp1.all isWS = true → sp2.all isWS = true →
        w ≠ [] → w.all isWordChar = true → lookOk r = true →
        formatSectionHeaders (secForm sp1 w r sp2) =
          '[' :: (w.map upChar ++ r ++ [']'])) ∧
      formatLine (("[itemdef 0x1]").toList) = ("[ITEMDEF 0x1]").toList :=
  ⟨fun _ _ _ _ h1 h2 hw hww hr => formatSection_strips h1 h2 hw hww hr, by decide⟩

theorem C5_counterexample :
    formatLine (("  [itemdef 0x1]").toList) ≠ ("  [ITEMDEF 0x1]").toList := by
  decide

theorem C5_section_headers_witness :
    formatSectionHeaders (secForm (("  ").toList) (("itemdef").toList)
        ((" 0x1").toList) []) =
      '[' :: ((("itemdef").toList).map upChar ++ (" 0x1").toList ++ [']']) :=
  C5_section_headers.1 (("  ").toList) (("itemdef").toList) ((" 0x1").toList) []
    (by decide) (by decide) (by decide) (by decide) (by decide)

/-- C6: trigger formatting: a whole-line trigger `on=@WORD` is uppercased
in full for every word token; the match is case-insensitive, repeats
across multiple occurrences on one line, includes trailing non-whitespace
characters after the word run, and fails (leaving the line unchanged) when
the trailing run would include a comment-introducing `//`. -/
theorem C6_trigger_formatting :
    (∀ w : List Char, w ≠ [] → w.all isWordChar = true →
        formatTriggers (onAt ++ w) = (onAt ++ w).map upChar) ∧
      formatLine (("on=@create").toList) = ("ON=@CREATE").toList ∧
      formatLine (("On=@Create").toList) = ("ON=@CREATE").toList ∧
      formatLine (("on=@create on=@dclick").toList) =
        ("ON=@CREATE ON=@DCLICK").toList ∧
      formatLine (("on=@create.1 more").toList) = ("ON=@CREATE.1 more").toList ∧
      formatLine (("on=@create//x").toList) = ("on=@create//x").toList :=
  ⟨fun _ hne hw => formatTriggers_full hne hw, by decide, by decide, by decide,
    by decide, by decide⟩

theorem C6_trigger_formatting_witness :
    formatTriggers (onAt ++ ("create").toList) =
      (onAt ++ ("create").toList).map upChar :=
  C6_trigger_formatting.1 (("create").toList) (by decide) (by decide)

/-- C7: edit completeness: the formatter returns one edit per document
line, in index order; the edit for line `i` spans columns `0` to the
original line length on line `i` and carries the formatted text, also when
that text equals the original. -/
theorem C7_edit_completeness (doc : List (List Char)) :
    (provideDocumentFormattingEdits doc).length = doc.length ∧
      ∀ i : Nat, i < doc.length →
        (provideDocumentFormattingEdits doc).get? i =
          some { startLine := i, startChar := 0, endLine := i,
                 endChar := (doc.getD i []).length,
                 newText := formatPipeline (doc.getD i []) } := by
  constructor
  · unfold provideDocumentFormattingEdits
    rw [List.length_map, List.enum_length]
  · intro i hi
    unfold provideDocumentFormattingEdits
    rw [List.get?_map, List.enum_get?]
    have h2 : doc.get? i = some (doc.getD i []) := by
      rw [List.getD_eq_get doc [] hi]
      exact List.get?_eq_get hi
    rw [h2]
    rfl

theorem C7_edit_completeness_witness :
    (provideDocumentFormattingEdits
        [(" say hi  ").toList, ("// c").toList]).length = 2 ∧
      (provideDocumentFormattingEdits
          [(" say hi  ").toList, ("// c").toList]).get? 1 =
        some { startLine := 1, startChar := 0, endLine := 1,
               endChar := (([(" say hi  ").toList,
                 ("// c").toList]).getD 1 []).length,
               newText := formatPipeline (([(" say hi  ").toList,
                 ("// c").toList]).getD 1 []) } :=
  ⟨(C7_edit_completeness [(" say hi  ").toList, ("// c").toList]).1,
    (C7_edit_completeness [(" say hi  ").toList, ("// c").toList]).2 1 (by decide)⟩

/-- C8 (amended): on a document whose every line text is a string the
formatting loop succeeds with exactly the canonical edits; a `null` line
text is NOT tolerated: `trimRight` on it throws, aborting the whole call,
as `C8_counterexample` shows, refuting the claim that null lines format as
empty lines. -/
theorem C8_null_line_tolerance (doc : List (List Char)) :
    formatDocumentEdits? (doc.map some) =
      Except.ok (provideDocumentFormattingEdits doc) := by
  unfold formatDocumentEdits?
  rw [go_map_some doc 0]
  rfl

theorem C8_counterexample :
    formatDocumentEdits? [none] = Except.error () := rfl

/-- C9: the canonical formatter (single central comment gate) and the
part_001 six-rule variant (per-rule comment re-checks) compute the same
output on every line. -/
theorem C9_variant_equivalence : ∀ l : List Char, vFormatLine l = formatLine l :=
  vFormatLine_eq_formatLine

/-- C10: inline trailing comments are still rewritten: on a line that is
not a whole-line comment but contains `//`, the command-call rule
uppercases command keywords occurring after the `//` (followed by
whitespace, `(` or end of line), because comment detection is whole-line
only. -/
theorem C10_inline_comment_rewritten :
    isCommentLine (("test // say hi").toList) = false ∧
      formatLine (("test // say hi").toList) = ("test // SAY hi").toList ∧
      formatLine (("a // go").toList) = ("a // GO").toList ∧
      formatLine (("emote hi // say(1)").toList) =
        ("EMOTE hi // SAY(1)").toList :=
  ⟨by decide, by decide, by decide, by decide⟩
